import Mathlib

/-!
# Chained hash table of `UTILS/HASHTABLE/hashtable.c`

A shallow embedding of the table engine: every C function becomes a pure
function on an explicit table value.

* A pointer (`void *`) is a natural number, `NULL` being `0`.
* A chain (`hash_node_t *` followed through `next`) is the list of its nodes,
  head first.
* The bucket array `nodes` is the list of the chains, bucket `0` first.
* The external collaborators are recorded instead of run: every call of the
  value destructor `freefunc` and of the visitor `functP` appends its
  arguments to a log that the operation returns.
* The outcome of an allocation is an input of the operation.
* The per-bucket locks (`HASHTABLE_MUTEX`) and the debug prints
  (`HASHTABLE_DEBUG`) are left out.
-/

namespace Hashtable

/-- The null pointer. -/
abbrev NULL : Nat := 0

/-- Modelled from the spec: `hashtable.h` is not part of the sources; the type
`hash_size_t` of the bucket count and of the live-entry counter is taken as an
unsigned 64-bit integer (the default hash strategy is the "identity cast of the
key", a 64-bit value), whose arithmetic is modulo this number. -/
def HASH_SIZE_MOD : Nat := 2 ^ 64

/-- Arithmetic of the `unsigned int` locals is modulo this number. -/
def UINT_MOD : Nat := 2 ^ 32

/-- The statement `hashtblP->num_elements += 1` on the unsigned counter. -/
def counter_inc (c : Nat) : Nat := (c + 1) % HASH_SIZE_MOD

/-- The statement `hashtblP->num_elements -= 1` on the unsigned counter: it
wraps around at zero to the largest value of the type. -/
def counter_dec (c : Nat) : Nat :=
  if c = 0 then HASH_SIZE_MOD - 1 else (c - 1) % HASH_SIZE_MOD

/-- The result codes that `hashtable_rc_code2string` names, and `undeclared v`
for an integer `v` returned where a `hashtable_rc_t` is expected although no
enumerator is written there (the `return -1` of the allocation failures). -/
inductive hashtable_rc_t where
  | HASH_TABLE_OK
  | HASH_TABLE_INSERT_OVERWRITTEN_DATA
  | HASH_TABLE_KEY_NOT_EXISTS
  | HASH_TABLE_KEY_ALREADY_EXISTS
  | HASH_TABLE_BAD_PARAMETER_HASHTABLE
  | undeclared (v : Int)
  deriving DecidableEq, Repr

open hashtable_rc_t

/-- One chain node: `key` and `data`; the `next` pointer is the tail of the
list the node stands in. -/
structure hash_node_t where
  key : Nat
  data : Nat
  deriving DecidableEq, Repr

/-- The table record: bucket count, live-entry counter, bucket array and hash
strategy. The destructor `freefunc` and the display name are external; calls
of `freefunc` are logged by the operations. -/
structure hash_table_t where
  size : Nat
  num_elements : Nat
  nodes : List (List hash_node_t)
  hashfunc : Nat → Nat

/-- `hashtable_rc_code2string`. -/
def hashtable_rc_code2string (rcP : hashtable_rc_t) : String :=
  match rcP with
  | HASH_TABLE_OK => "HASH_TABLE_OK"
  | HASH_TABLE_INSERT_OVERWRITTEN_DATA => "HASH_TABLE_INSERT_OVERWRITTEN_DATA"
  | HASH_TABLE_KEY_NOT_EXISTS => "HASH_TABLE_KEY_NOT_EXISTS"
  | HASH_TABLE_KEY_ALREADY_EXISTS => "HASH_TABLE_KEY_ALREADY_EXISTS"
  | HASH_TABLE_BAD_PARAMETER_HASHTABLE => "HASH_TABLE_BAD_PARAMETER_HASHTABLE"
  | undeclared _ => "UNKNOWN hashtable_rc_t"

/-- `def_hashfunc`: the key cast to `hash_size_t`. -/
def def_hashfunc (keyP : Nat) : Nat := keyP % HASH_SIZE_MOD

/-- `hashtable_create`. `table_malloc_ok` and `nodes_calloc_ok` are the
outcomes of the two allocations; `uninit` is the content that the memory
returned by `malloc` happens to hold where `num_elements` lies: the function
never writes that field. `calloc` zeroes the bucket array, so every chain is
empty. The result is `none` for the `NULL` return. -/
def hashtable_create (sizeP : Nat) (hashfuncP : Option (Nat → Nat))
    (table_malloc_ok nodes_calloc_ok : Bool) (uninit : Nat) : Option hash_table_t :=
  if !table_malloc_ok then none
  else if !nodes_calloc_ok then none
  else
    some { size := sizeP
           num_elements := uninit
           nodes := List.replicate sizeP []
           hashfunc := match hashfuncP with
             | some f => f
             | none => def_hashfunc }

/-- The chain of bucket `i`, `hashtblP->nodes[i]`. -/
def bucket (t : hash_table_t) (i : Nat) : List hash_node_t := t.nodes.getD i []

/-- The bucket index of a key, `hashtblP->hashfunc (keyP) % hashtblP->size`.
The source divides by `size` unguarded; a table has `size >= 1`. -/
def hash_index (t : hash_table_t) (keyP : Nat) : Nat := t.hashfunc keyP % t.size

/-- The chain walk of `hashtable_is_key_exists`: is there a node with the
key. -/
def chain_exists (keyP : Nat) : List hash_node_t → Bool
  | [] => false
  | node :: next => if node.key = keyP then true else chain_exists keyP next

/-- `hashtable_is_key_exists`. -/
def hashtable_is_key_exists (hashtblP : Option hash_table_t) (keyP : Nat) : hashtable_rc_t :=
  match hashtblP with
  | none => HASH_TABLE_BAD_PARAMETER_HASHTABLE
  | some t =>
    if chain_exists keyP (bucket t (hash_index t keyP)) then HASH_TABLE_OK
    else HASH_TABLE_KEY_NOT_EXISTS

/-- The chain walk of `hashtable_get`: the data of the first node with the
key. -/
def chain_get (keyP : Nat) : List hash_node_t → Option Nat
  | [] => none
  | node :: next => if node.key = keyP then some node.data else chain_get keyP next

/-- `hashtable_get`: the result code and the value stored in `*dataP`, which
the function writes on each of its three paths. -/
def hashtable_get (hashtblP : Option hash_table_t) (keyP : Nat) : hashtable_rc_t × Nat :=
  match hashtblP with
  | none => (HASH_TABLE_BAD_PARAMETER_HASHTABLE, NULL)
  | some t =>
    match chain_get keyP (bucket t (hash_index t keyP)) with
    | some data => (HASH_TABLE_OK, data)
    | none => (HASH_TABLE_KEY_NOT_EXISTS, NULL)

/-- What a mutating operation leaves behind: the result code, the table (a
`NULL` table stays `NULL`), the arguments of the `freefunc` calls in call
order, and the value written through the output pointer if any. -/
structure outcome where
  rc : hashtable_rc_t
  tbl : Option hash_table_t
  freed : List Nat
  out : Option Nat

/-- The chain walk of `hashtable_is_key_exists` as a state transformer: the
table is carried along the walk, and the outcome holds the table as the walk
leaves it, the destructor calls made and the value written out (none: the
function has no output parameter). -/
def exists_walk (keyP : Nat) : List hash_node_t → hash_table_t → outcome
  | [], t => ⟨HASH_TABLE_KEY_NOT_EXISTS, some t, [], none⟩
  | node :: next, t =>
    if node.key = keyP then ⟨HASH_TABLE_OK, some t, [], none⟩ else exists_walk keyP next t

/-- `hashtable_is_key_exists` with the table after the call among its
results. -/
def hashtable_is_key_exists_run (hashtblP : Option hash_table_t) (keyP : Nat) : outcome :=
  match hashtblP with
  | none => ⟨HASH_TABLE_BAD_PARAMETER_HASHTABLE, none, [], none⟩
  | some t => exists_walk keyP (bucket t (hash_index t keyP)) t

/-- The chain walk of `hashtable_get` as a state transformer: the table is
carried along the walk, and the outcome holds the table as the walk leaves it,
the destructor calls made and the value written to `*dataP`. -/
def get_walk (keyP : Nat) : List hash_node_t → hash_table_t → outcome
  | [], t => ⟨HASH_TABLE_KEY_NOT_EXISTS, some t, [], some NULL⟩
  | node :: next, t =>
    if node.key = keyP then ⟨HASH_TABLE_OK, some t, [], some node.data⟩
    else get_walk keyP next t

/-- `hashtable_get` with the table after the call among its results. -/
def hashtable_get_run (hashtblP : Option hash_table_t) (keyP : Nat) : outcome :=
  match hashtblP with
  | none => ⟨HASH_TABLE_BAD_PARAMETER_HASHTABLE, none, [], some NULL⟩
  | some t => get_walk keyP (bucket t (hash_index t keyP)) t

/-- The chain walk of `hashtable_insert`: at the first node with the key,
`freefunc` is called on its data unless that is `NULL`, and the data is
replaced. `none` when the walk reaches the end of the chain. -/
def chain_overwrite (keyP dataP : Nat) : List hash_node_t → Option (List hash_node_t × List Nat)
  | [] => none
  | node :: next =>
    if node.key = keyP then
      some ({ node with data := dataP } :: next, if node.data ≠ NULL then [node.data] else [])
    else
      match chain_overwrite keyP dataP next with
      | some (chain, freed) => some (node :: chain, freed)
      | none => none

/-- `hashtable_insert`. `node_malloc_ok` is the outcome of the allocation of
the new node, consulted only when the key is not in its chain. -/
def hashtable_insert (hashtblP : Option hash_table_t) (keyP dataP : Nat)
    (node_malloc_ok : Bool) : outcome :=
  match hashtblP with
  | none => ⟨HASH_TABLE_BAD_PARAMETER_HASHTABLE, none, [], none⟩
  | some t =>
    let hash := hash_index t keyP
    match chain_overwrite keyP dataP (bucket t hash) with
    | some (chain, freed) =>
      ⟨HASH_TABLE_INSERT_OVERWRITTEN_DATA, some { t with nodes := t.nodes.set hash chain }, freed, none⟩
    | none =>
      if !node_malloc_ok then ⟨undeclared (-1), some t, [], none⟩
      else
        ⟨HASH_TABLE_OK,
         some { t with nodes := t.nodes.set hash (⟨keyP, dataP⟩ :: bucket t hash)
                       num_elements := counter_inc t.num_elements },
         [], none⟩

/-- The chain walk of `hashtable_free` and `hashtable_remove`: the first node
with the key is unlinked; the result is the remaining chain and the data of
the unlinked node. `none` when no node has the key. -/
def chain_unlink (keyP : Nat) : List hash_node_t → Option (List hash_node_t × Nat)
  | [] => none
  | node :: next =>
    if node.key = keyP then some (next, node.data)
    else
      match chain_unlink keyP next with
      | some (chain, data) => some (node :: chain, data)
      | none => none

/-- `hashtable_free`. -/
def hashtable_free (hashtblP : Option hash_table_t) (keyP : Nat) : outcome :=
  match hashtblP with
  | none => ⟨HASH_TABLE_BAD_PARAMETER_HASHTABLE, none, [], none⟩
  | some t =>
    let hash := hash_index t keyP
    match chain_unlink keyP (bucket t hash) with
    | some (chain, data) =>
      ⟨HASH_TABLE_OK,
       some { t with nodes := t.nodes.set hash chain
                     num_elements := counter_dec t.num_elements },
       if data ≠ NULL then [data] else [], none⟩
    | none => ⟨HASH_TABLE_KEY_NOT_EXISTS, some t, [], none⟩

/-- `hashtable_remove`: as `hashtable_free`, but the data goes to `*dataP`
and `freefunc` is not called. -/
def hashtable_remove (hashtblP : Option hash_table_t) (keyP : Nat) : outcome :=
  match hashtblP with
  | none => ⟨HASH_TABLE_BAD_PARAMETER_HASHTABLE, none, [], none⟩
  | some t =>
    let hash := hash_index t keyP
    match chain_unlink keyP (bucket t hash) with
    | some (chain, data) =>
      ⟨HASH_TABLE_OK,
       some { t with nodes := t.nodes.set hash chain
                     num_elements := counter_dec t.num_elements },
       [], some data⟩
    | none => ⟨HASH_TABLE_KEY_NOT_EXISTS, some t, [], none⟩

/-- The inner `while (node)` loop of `hashtable_apply_funct_on_elements`: the
local `unsigned int num_elements` is incremented and `functP` is called on the
key and data of every node of the chain. The result is the local counter after
the chain and the calls of `functP` in call order. -/
def visit_chain : List hash_node_t → Nat → Nat × List (Nat × Nat)
  | [], num_elements => (num_elements, [])
  | node :: next, num_elements =>
    let r := visit_chain next ((num_elements + 1) % UINT_MOD)
    (r.1, (node.key, node.data) :: r.2)

/-- The outer `while` loop of `hashtable_apply_funct_on_elements`, from bucket
index `i` and local counter `num_elements` on. The index is an `unsigned int`
and wraps; `fuel` bounds the number of iterations, `none` meaning that the
loop has not ended within it. -/
def visit_buckets (t : hash_table_t) : Nat → Nat → Nat → Option (List (Nat × Nat))
  | 0, _, _ => none
  | fuel + 1, i, num_elements =>
    if num_elements < t.num_elements ∧ i < t.size then
      let r := visit_chain (bucket t i) num_elements
      match visit_buckets t fuel ((i + 1) % UINT_MOD) r.1 with
      | some calls => some (r.2 ++ calls)
      | none => none
    else some []

/-- `hashtable_apply_funct_on_elements`: the result code and the calls of the
visitor `functP`, as (key, data) pairs in call order; `none` when the loop has
not ended within `fuel` iterations. The visitor is taken not to touch the
table. -/
def hashtable_apply_funct_on_elements (hashtblP : Option hash_table_t) (fuel : Nat) :
    Option (hashtable_rc_t × List (Nat × Nat)) :=
  match hashtblP with
  | none => some (HASH_TABLE_BAD_PARAMETER_HASHTABLE, [])
  | some t =>
    match visit_buckets t fuel 0 0 with
    | some calls => some (HASH_TABLE_OK, calls)
    | none => none

/-- `snprintf (buffer, size, ...)` for the rendered text `text`: when `size`
is not zero, the first `size - 1` characters of the text and a terminating NUL
are written at the START of the buffer, the rest of the buffer keeps its
content. The return value is the length of the whole text. -/
def snprintf (buffer : List Char) (size : Nat) (text : List Char) : List Char × Int :=
  if size = 0 then (buffer, (text.length : Int))
  else
    let written := text.take (size - 1) ++ [Char.ofNat 0]
    (written ++ buffer.drop written.length, (text.length : Int))

/-- An `int` converted to the `size_t` parameter of `snprintf`. -/
def size_t_of_int (v : Int) : Nat := (v % (HASH_SIZE_MOD : Int)).toNat

/-- The text of the format `"Key 0x%"PRIx64" Element %p\n"` for one node.
The rendering of `%p` is left to the implementation by the C standard and is
the parameter `ptr_fmt`. -/
def dump_line (ptr_fmt : Nat → List Char) (node : hash_node_t) : List Char :=
  "Key 0x".toList ++ Nat.toDigits 16 node.key ++ " Element ".toList ++ ptr_fmt node.data
    ++ [Char.ofNat 10]

/-- The text up to the first NUL: the buffer read as a C string. -/
def c_string : List Char → List Char
  | [] => []
  | c :: cs => if c = Char.ofNat 0 then [] else c :: c_string cs

/-- The inner `while (node)` loop of `hashtable_dump_content`: every node is
rendered with `snprintf` at `buffer_pP`, which is never advanced, and the
remaining capacity is decreased by the returned length unless that is negative
or exceeds the capacity. -/
def dump_chain (ptr_fmt : Nat → List Char) : List hash_node_t → List Char → Int → List Char × Int
  | [], buffer, remaining => (buffer, remaining)
  | node :: next, buffer, remaining =>
    let r := snprintf buffer (size_t_of_int remaining) (dump_line ptr_fmt node)
    if 0 > r.2 ∨ remaining < r.2 then dump_chain ptr_fmt next r.1 remaining
    else dump_chain ptr_fmt next r.1 (remaining - r.2)

/-- The outer `while` loop of `hashtable_dump_content`, from bucket index `i`
on; `fuel` as in `visit_buckets`. -/
def dump_buckets (ptr_fmt : Nat → List Char) (t : hash_table_t) :
    Nat → Nat → List Char → Int → Option (List Char × Int)
  | 0, _, _, _ => none
  | fuel + 1, i, buffer, remaining =>
    if i < t.size ∧ remaining > 0 then
      let r := dump_chain ptr_fmt (bucket t i) buffer remaining
      dump_buckets ptr_fmt t fuel ((i + 1) % UINT_MOD) r.1 r.2
    else some (buffer, remaining)

/-- `hashtable_dump_content`: the result code, the buffer and
`*remaining_bytes_in_buffer_pP` after the call; `none` when the loop has not
ended within `fuel` iterations. -/
def hashtable_dump_content (ptr_fmt : Nat → List Char) (hashtblP : Option hash_table_t)
    (buffer_pP : List Char) (remaining_bytes : Int) (fuel : Nat) :
    Option (hashtable_rc_t × List Char × Int) :=
  match hashtblP with
  | none =>
    some (HASH_TABLE_BAD_PARAMETER_HASHTABLE,
      (snprintf buffer_pP (size_t_of_int remaining_bytes)
        "HASH_TABLE_BAD_PARAMETER_HASHTABLE".toList).1,
      remaining_bytes)
  | some t =>
    match dump_buckets ptr_fmt t fuel 0 buffer_pP remaining_bytes with
    | some (buffer, remaining) => some (HASH_TABLE_OK, buffer, remaining)
    | none => none

/-- The `while (node)` loop of `hashtable_destroy`: `freefunc` is called on the
data of every node unless it is `NULL`. -/
def destroy_chain : List hash_node_t → List Nat
  | [] => []
  | oldnode :: node => (if oldnode.data ≠ NULL then [oldnode.data] else []) ++ destroy_chain node

/-- The `for` loop of `hashtable_destroy` over the buckets `n`, `n + 1`, ...,
`todo` of them being left. -/
def destroy_buckets (t : hash_table_t) : Nat → Nat → List Nat
  | 0, _ => []
  | todo + 1, n => destroy_chain (bucket t n) ++ destroy_buckets t todo (n + 1)

/-- `hashtable_destroy`: the table is released, so none is left. -/
def hashtable_destroy (hashtblP : Option hash_table_t) : outcome :=
  match hashtblP with
  | none => ⟨HASH_TABLE_BAD_PARAMETER_HASHTABLE, none, [], none⟩
  | some t => ⟨HASH_TABLE_OK, none, destroy_buckets t t.size 0, none⟩

/-- The two tables `hashtable_resize` works on: the caller's table `old`
(`*hashtblP`) and the scratch table `new` (`newtbl`); and the number of inner
loop iterations made so far. -/
structure resize_state where
  old : hash_table_t
  new : hash_table_t
  inserts : Nat

/-- The body of the inner loop of `hashtable_resize` for one node:

    hashtable_remove (hashtblP, node->key, &dummy);
    hashtable_insert (&newtbl, node->key, node->data);

both result codes being ignored. `hashtable_remove` is called with the node's
key and releases the node (`free (node)`). The arguments of `hashtable_insert`
are then read from the released node: the C standard leaves the outcome of
these two reads undefined. That outcome is the parameter `released`:
`released j node` is `none` when the run does not go on in iteration `j` (a
trap), and `some seen` when it goes on with `seen.key` and `seen.data` as the
values read, which are the node's own key and data only if the allocator has
left the released memory as it was. An overwrite in the scratch table that has
to release a value calls `newtbl.freefunc`, a field of the stack variable
`newtbl` that is never initialised: the run does not go on either. -/
def resize_step (node_malloc_ok : Nat → Bool)
    (released : Nat → hash_node_t → Option hash_node_t) (node : hash_node_t)
    (s : resize_state) : Option resize_state :=
  let rem := hashtable_remove (some s.old) node.key
  match released s.inserts node with
  | none => none
  | some seen =>
    let ins := hashtable_insert (some s.new) seen.key seen.data (node_malloc_ok s.inserts)
    match ins.freed with
    | [] =>
      some { old := rem.tbl.getD s.old
             new := ins.tbl.getD s.new
             inserts := s.inserts + 1 }
    | _ :: _ => none

/-- The inner `for (node = hashtblP->nodes[n]; node; node = next)` loop of
`hashtable_resize` over the chain found in bucket `n`; `next` is saved before
the node is released. The walk follows the chain as it was when the loop
reached the bucket, which is what the saved `next` pointers give when every
removal unlinks the very node it was called for, as it does in a table
satisfying `placement`. -/
def resize_chain (node_malloc_ok : Nat → Bool)
    (released : Nat → hash_node_t → Option hash_node_t) :
    List hash_node_t → resize_state → Option resize_state
  | [], s => some s
  | node :: next, s =>
    match resize_step node_malloc_ok released node s with
    | none => none
    | some s1 => resize_chain node_malloc_ok released next s1

/-- The outer `for (n = 0; n < hashtblP->size; ++n)` loop of
`hashtable_resize`, `todo` buckets being left from bucket `n` on. -/
def resize_buckets (node_malloc_ok : Nat → Bool)
    (released : Nat → hash_node_t → Option hash_node_t) :
    Nat → Nat → resize_state → Option resize_state
  | 0, _, s => some s
  | todo + 1, n, s =>
    match resize_chain node_malloc_ok released (bucket s.old n) s with
    | none => none
    | some s1 => resize_buckets node_malloc_ok released todo (n + 1) s1

/-- `hashtable_resize`. `nodes_calloc_ok` is the outcome of the allocation of
the new bucket array, `node_malloc_ok j` that of the node allocation in the
`j`-th `hashtable_insert` call (from `0`), `uninit` the content of the
uninitialised `newtbl.num_elements` on the stack, and `released` what the
reads of released nodes yield (see `resize_step`). The result is `none` when
the run does not go on to the `return`. Only `size` and `nodes` of the scratch
table are installed in the caller's table at the end; the destructor of the
caller's table is never called. -/
def hashtable_resize (hashtblP : Option hash_table_t) (sizeP : Nat) (nodes_calloc_ok : Bool)
    (node_malloc_ok : Nat → Bool) (uninit : Nat)
    (released : Nat → hash_node_t → Option hash_node_t) : Option outcome :=
  match hashtblP with
  | none => some ⟨HASH_TABLE_BAD_PARAMETER_HASHTABLE, none, [], none⟩
  | some t =>
    if !nodes_calloc_ok then some ⟨undeclared (-1), some t, [], none⟩
    else
      let newtbl : hash_table_t :=
        { size := sizeP, num_elements := uninit, nodes := List.replicate sizeP [],
          hashfunc := t.hashfunc }
      match resize_buckets node_malloc_ok released t.size 0 ⟨t, newtbl, 0⟩ with
      | none => none
      | some s =>
        some ⟨HASH_TABLE_OK, some { s.old with size := s.new.size, nodes := s.new.nodes }, [],
          none⟩

/-! ## Table properties -/

/-- All nodes of the table, bucket by bucket and each chain head first. -/
def entries (t : hash_table_t) : List hash_node_t := t.nodes.flatten

/-- The placement invariant: every node sits in the chain of bucket
`hashfunc (key) % size`. -/
def placement (t : hash_table_t) : Prop :=
  ∀ i < t.nodes.length, ∀ node ∈ bucket t i, hash_index t node.key = i

/-- Key uniqueness: no key is stored twice in the table. -/
def unique_keys (t : hash_table_t) : Prop := ((entries t).map hash_node_t.key).Nodup

/-- A well-formed table: at least one bucket, a bucket array of `size` chains,
every node in the bucket of its key, no key stored twice. -/
def well_formed (t : hash_table_t) : Prop :=
  1 ≤ t.size ∧ t.nodes.length = t.size ∧ placement t ∧ unique_keys t

instance (t : hash_table_t) : Decidable (placement t) := by
  unfold placement; infer_instance

instance (t : hash_table_t) : Decidable (unique_keys t) := by
  unfold unique_keys; infer_instance

instance (t : hash_table_t) : Decidable (well_formed t) := by
  unfold well_formed; infer_instance

/-- The counter invariant: the live-entry counter is the number of nodes in
the chains. -/
def counter_ok (t : hash_table_t) : Prop := t.num_elements = (entries t).length

instance (t : hash_table_t) : Decidable (counter_ok t) := by
  unfold counter_ok; infer_instance

/-! ## Scenario tables -/

/-- Successive `hashtable_insert` calls for a list of (key, value) pairs, every
node allocation succeeding. -/
def insert_all (hashtblP : Option hash_table_t) : List (Nat × Nat) → Option hash_table_t
  | [] => hashtblP
  | (keyP, dataP) :: rest => insert_all (hashtable_insert hashtblP keyP dataP true).tbl rest

/-- Four buckets, hash strategy `h(k) = k`, keys 1, 5, 9 inserted in this
order with the values 101, 105, 109: all three in bucket 1. -/
def table_1_5_9 : hash_table_t :=
  ⟨4, 3, [[], [⟨9, 109⟩, ⟨5, 105⟩, ⟨1, 101⟩], [], []], fun k => k⟩

/-- Two buckets, default hash strategy, key 10 bound to the value 65. -/
def table_key10 : hash_table_t := ⟨2, 1, [[⟨10, 65⟩], []], def_hashfunc⟩

/-- Two buckets, default hash strategy, key 10 bound to `NULL`, as left by
`hashtable_insert (t, 10, NULL)`. -/
def table_key10_null : hash_table_t := ⟨2, 1, [[⟨10, NULL⟩], []], def_hashfunc⟩

/-- Two buckets, default hash strategy, keys 1 to 8 inserted in this order
with the values 101 to 108. -/
def table_1_to_8 : hash_table_t :=
  ⟨2, 8,
   [[⟨8, 108⟩, ⟨6, 106⟩, ⟨4, 104⟩, ⟨2, 102⟩], [⟨7, 107⟩, ⟨5, 105⟩, ⟨3, 103⟩, ⟨1, 101⟩]],
   def_hashfunc⟩

/-- What can be compared of a table: bucket count, live-entry counter and
chains. -/
def contents (t : hash_table_t) : Nat × Nat × List (List hash_node_t) :=
  (t.size, t.num_elements, t.nodes)

/-- A rendering of `%p` as glibc does it: `0x` and the lowercase hexadecimal
digits of the pointer. -/
def ptr_hex (p : Nat) : List Char := "0x".toList ++ Nat.toDigits 16 p

/-- A destination buffer of 64 bytes holding dots. -/
def dots_64 : List Char := List.replicate 64 (Char.ofNat 46)

/-- One bucket holding the keys 2, 1, 0 and a live-entry counter of 1, less
than the three entries in the chain. -/
def table_counter_1 : hash_table_t :=
  ⟨1, 1, [[⟨2, 102⟩, ⟨1, 101⟩, ⟨0, 100⟩]], def_hashfunc⟩

/-- The number of entries in the buckets before bucket `i`. -/
def entries_before (t : hash_table_t) (i : Nat) : Nat := ((t.nodes.take i).flatten).length

/-- The released memory still holds what the node held. -/
def intact : Nat → hash_node_t → Option hash_node_t := fun _ node => some node

/-- The allocator has written its own bookkeeping over the released node: the
read in iteration `j` yields the key `64 + j` and the data `64`. -/
def scribbled : Nat → hash_node_t → Option hash_node_t := fun j _ => some ⟨64 + j, 64⟩

/-- The allocator has written the same words over every released node: every
read yields the key `64` and the data `64`. -/
def scribbled_alike : Nat → hash_node_t → Option hash_node_t := fun _ _ => some ⟨64, 64⟩

/-- The read of a released node traps. -/
def trapping : Nat → hash_node_t → Option hash_node_t := fun _ _ => none

/-- A table of `2^32 + 1` buckets as left by `hashtable_create` (the counter
memory holding 0) and one `hashtable_insert` of the key `2^32` with the value
7, under the default hash strategy: the entry sits in the last bucket, index
`2^32`, and the counter is 1. -/
def table_wide : hash_table_t :=
  ⟨UINT_MOD + 1, 1, (List.replicate (UINT_MOD + 1) []).set UINT_MOD [⟨UINT_MOD, 7⟩],
   def_hashfunc⟩

/-- A table of `2^32` empty buckets as left by `hashtable_create` (the counter
memory holding 0). -/
def table_wide_empty : hash_table_t := ⟨UINT_MOD, 0, List.replicate UINT_MOD [], def_hashfunc⟩

attribute [irreducible] hash_index counter_inc counter_dec

/-! ## Buckets and chains -/

open hashtable_rc_t

theorem hash_index_lt (t : hash_table_t) (keyP : Nat) (h : 1 ≤ t.size) :
    hash_index t keyP < t.size := by
  simp only [hash_index]
  exact Nat.mod_lt _ h

theorem hash_index_congr (a b : hash_table_t) (keyP : Nat) (hs : a.size = b.size)
    (hf : a.hashfunc = b.hashfunc) : hash_index a keyP = hash_index b keyP := by
  simp only [hash_index, hs, hf]

theorem bucket_set_same (t : hash_table_t) (i : Nat) (chain : List hash_node_t) (c : Nat)
    (h : i < t.nodes.length) :
    bucket { t with nodes := t.nodes.set i chain, num_elements := c } i = chain := by
  simp [bucket, List.getD_eq_getElem?_getD, List.getElem?_set_self h]

theorem bucket_set_other (t : hash_table_t) (i j : Nat) (chain : List hash_node_t) (c : Nat)
    (h : i ≠ j) :
    bucket { t with nodes := t.nodes.set i chain, num_elements := c } j = bucket t j := by
  simp [bucket, List.getD_eq_getElem?_getD, List.getElem?_set_ne h]

theorem bucket_eq_getElem (t : hash_table_t) (i : Nat) (h : i < t.nodes.length) :
    bucket t i = t.nodes[i] := by
  simp [bucket, List.getD_eq_getElem?_getD, List.getElem?_eq_getElem h]

theorem bucket_mem_nodes (t : hash_table_t) (i : Nat) (h : i < t.nodes.length) :
    bucket t i ∈ t.nodes := by
  rw [bucket_eq_getElem t i h]
  exact List.getElem_mem _

theorem entries_split (t : hash_table_t) (i : Nat) (h : i < t.nodes.length) :
    entries t = (t.nodes.take i).flatten ++ (bucket t i ++ (t.nodes.drop (i + 1)).flatten) := by
  unfold entries
  conv_lhs => rw [← List.take_append_drop i t.nodes, List.drop_eq_getElem_cons h]
  rw [List.flatten_append, List.flatten_cons, bucket_eq_getElem t i h]

theorem entries_set (t : hash_table_t) (i : Nat) (chain : List hash_node_t) (c : Nat)
    (h : i < t.nodes.length) :
    entries { t with nodes := t.nodes.set i chain, num_elements := c }
      = (t.nodes.take i).flatten ++ (chain ++ (t.nodes.drop (i + 1)).flatten) := by
  unfold entries
  simp only [List.set_eq_take_cons_drop chain h, List.flatten_append, List.flatten_cons]

theorem chain_get_eq_none (keyP : Nat) (chain : List hash_node_t) :
    chain_get keyP chain = none ↔ keyP ∉ chain.map hash_node_t.key := by
  induction chain with
  | nil => simp [chain_get]
  | cons node next ih =>
    by_cases hk : node.key = keyP
    · simp [chain_get, hk]
    · simp [chain_get, hk, ih, Ne.symm hk]

theorem chain_exists_eq_true (keyP : Nat) (chain : List hash_node_t) :
    chain_exists keyP chain = true ↔ keyP ∈ chain.map hash_node_t.key := by
  induction chain with
  | nil => simp [chain_exists]
  | cons node next ih =>
    by_cases hk : node.key = keyP
    · simp [chain_exists, hk]
    · simp [chain_exists, hk, ih, Ne.symm hk]

theorem chain_get_mem (keyP data : Nat) (chain : List hash_node_t)
    (h : chain_get keyP chain = some data) : (⟨keyP, data⟩ : hash_node_t) ∈ chain := by
  induction chain with
  | nil => simp [chain_get] at h
  | cons node next ih =>
    by_cases hk : node.key = keyP
    · simp [chain_get, hk] at h
      cases node
      simp_all
    · simp [chain_get, hk] at h
      exact List.mem_cons_of_mem _ (ih h)

theorem chain_get_of_mem (keyP data : Nat) (chain : List hash_node_t)
    (hn : (chain.map hash_node_t.key).Nodup) (h : (⟨keyP, data⟩ : hash_node_t) ∈ chain) :
    chain_get keyP chain = some data := by
  induction chain with
  | nil => simp at h
  | cons node next ih =>
    simp only [List.map_cons, List.nodup_cons] at hn
    rcases List.mem_cons.mp h with h | h
    · subst h
      simp [chain_get]
    · have hk : node.key ≠ keyP := by
        intro e
        apply hn.1
        rw [e]
        exact List.mem_map_of_mem hash_node_t.key h
      simp [chain_get, hk, ih hn.2 h]

theorem chain_overwrite_eq_none (keyP dataP : Nat) (chain : List hash_node_t) :
    chain_overwrite keyP dataP chain = none ↔ keyP ∉ chain.map hash_node_t.key := by
  induction chain with
  | nil => simp [chain_overwrite]
  | cons node next ih =>
    by_cases hk : node.key = keyP
    · simp [chain_overwrite, hk]
    · cases hr : chain_overwrite keyP dataP next with
      | none => simp [chain_overwrite, hk, hr, Ne.symm hk, ih.mp hr]
      | some r =>
        have : keyP ∈ next.map hash_node_t.key := by
          by_contra hc
          rw [ih.mpr hc] at hr
          cases hr
        simp only [List.mem_map] at this
        simp [chain_overwrite, hk, hr, this]

theorem chain_overwrite_keys (keyP dataP : Nat) (chain chain2 : List hash_node_t)
    (freed : List Nat) (h : chain_overwrite keyP dataP chain = some (chain2, freed)) :
    chain2.map hash_node_t.key = chain.map hash_node_t.key := by
  induction chain generalizing chain2 freed with
  | nil => simp [chain_overwrite] at h
  | cons node next ih =>
    by_cases hk : node.key = keyP
    · simp [chain_overwrite, hk] at h
      rw [← h.1]
      simp [hk]
    · cases hr : chain_overwrite keyP dataP next with
      | none => simp [chain_overwrite, hk, hr] at h
      | some r =>
        obtain ⟨c, f⟩ := r
        simp [chain_overwrite, hk, hr] at h
        rw [← h.1]
        simp [ih c f hr]

theorem chain_overwrite_get (keyP dataP : Nat) (chain chain2 : List hash_node_t)
    (freed : List Nat) (h : chain_overwrite keyP dataP chain = some (chain2, freed)) :
    chain_get keyP chain2 = some dataP := by
  induction chain generalizing chain2 freed with
  | nil => simp [chain_overwrite] at h
  | cons node next ih =>
    by_cases hk : node.key = keyP
    · simp [chain_overwrite, hk] at h
      rw [← h.1]
      simp [chain_get, hk]
    · cases hr : chain_overwrite keyP dataP next with
      | none => simp [chain_overwrite, hk, hr] at h
      | some r =>
        obtain ⟨c, f⟩ := r
        simp [chain_overwrite, hk, hr] at h
        rw [← h.1]
        simp [chain_get, hk, ih c f hr]

theorem chain_overwrite_get_other (keyP dataP k : Nat) (chain chain2 : List hash_node_t)
    (freed : List Nat) (h : chain_overwrite keyP dataP chain = some (chain2, freed))
    (hne : k ≠ keyP) : chain_get k chain2 = chain_get k chain := by
  induction chain generalizing chain2 freed with
  | nil => simp [chain_overwrite] at h
  | cons node next ih =>
    by_cases hk : node.key = keyP
    · simp [chain_overwrite, hk] at h
      rw [← h.1]
      simp [chain_get, hk, Ne.symm hne]
    · cases hr : chain_overwrite keyP dataP next with
      | none => simp [chain_overwrite, hk, hr] at h
      | some r =>
        obtain ⟨c, f⟩ := r
        simp [chain_overwrite, hk, hr] at h
        rw [← h.1]
        simp [chain_get, ih c f hr]

/-! ## The operations case by case -/

theorem insert_overwrite_eq (t : hash_table_t) (keyP dataP : Nat) (ok : Bool)
    (chain : List hash_node_t) (freed : List Nat)
    (h : chain_overwrite keyP dataP (bucket t (hash_index t keyP)) = some (chain, freed)) :
    hashtable_insert (some t) keyP dataP ok
      = ⟨HASH_TABLE_INSERT_OVERWRITTEN_DATA,
         some { t with nodes := t.nodes.set (hash_index t keyP) chain }, freed, none⟩ := by
  simp [hashtable_insert, h]

theorem insert_fresh_eq (t : hash_table_t) (keyP dataP : Nat)
    (h : chain_overwrite keyP dataP (bucket t (hash_index t keyP)) = none) :
    hashtable_insert (some t) keyP dataP true
      = ⟨HASH_TABLE_OK,
         some { t with nodes := t.nodes.set (hash_index t keyP)
                                  (⟨keyP, dataP⟩ :: bucket t (hash_index t keyP))
                       num_elements := counter_inc t.num_elements },
         [], none⟩ := by
  simp [hashtable_insert, h]

theorem get_after_set (t : hash_table_t) (keyP : Nat) (chain : List hash_node_t) (c : Nat)
    (h : hash_index t keyP < t.nodes.length) :
    hashtable_get
        (some { t with nodes := t.nodes.set (hash_index t keyP) chain, num_elements := c }) keyP
      = match chain_get keyP chain with
        | some data => (HASH_TABLE_OK, data)
        | none => (HASH_TABLE_KEY_NOT_EXISTS, NULL) := by
  have hb := bucket_set_same t (hash_index t keyP) chain c h
  simp only [hashtable_get]
  rw [hash_index_congr { t with nodes := t.nodes.set (hash_index t keyP) chain, num_elements := c }
        t keyP rfl rfl, hb]

theorem get_after_insert (t : hash_table_t) (keyP dataP : Nat) (hsz : 1 ≤ t.size)
    (hlen : t.nodes.length = t.size) :
    hashtable_get (hashtable_insert (some t) keyP dataP true).tbl keyP
      = (HASH_TABLE_OK, dataP) := by
  have hi : hash_index t keyP < t.nodes.length := hlen ▸ hash_index_lt t keyP hsz
  cases hr : chain_overwrite keyP dataP (bucket t (hash_index t keyP)) with
  | some r =>
    obtain ⟨chain, freed⟩ := r
    rw [insert_overwrite_eq t keyP dataP true chain freed hr]
    simp only []
    rw [get_after_set t keyP chain t.num_elements hi,
      chain_overwrite_get keyP dataP _ chain freed hr]
  | none =>
    rw [insert_fresh_eq t keyP dataP hr]
    simp only []
    rw [get_after_set t keyP _ _ hi]
    simp [chain_get]

theorem chain_unlink_eq_none (keyP : Nat) (chain : List hash_node_t) :
    chain_unlink keyP chain = none ↔ keyP ∉ chain.map hash_node_t.key := by
  induction chain with
  | nil => simp [chain_unlink]
  | cons node next ih =>
    by_cases hk : node.key = keyP
    · simp [chain_unlink, hk]
    · cases hr : chain_unlink keyP next with
      | none => simp [chain_unlink, hk, hr, Ne.symm hk, ih.mp hr]
      | some r =>
        have : keyP ∈ next.map hash_node_t.key := by
          by_contra hc
          rw [ih.mpr hc] at hr
          cases hr
        simp only [List.mem_map] at this
        simp [chain_unlink, hk, hr, this]

theorem chain_unlink_perm (keyP data : Nat) (chain chain2 : List hash_node_t)
    (h : chain_unlink keyP chain = some (chain2, data)) :
    List.Perm chain (⟨keyP, data⟩ :: chain2) := by
  induction chain generalizing chain2 with
  | nil => simp [chain_unlink] at h
  | cons node next ih =>
    by_cases hk : node.key = keyP
    · simp [chain_unlink, hk] at h
      obtain ⟨h1, h2⟩ := h
      subst h1 h2 hk
      exact List.Perm.refl _
    · cases hr : chain_unlink keyP next with
      | none => simp [chain_unlink, hk, hr] at h
      | some r =>
        obtain ⟨c, d⟩ := r
        simp [chain_unlink, hk, hr] at h
        obtain ⟨h1, h2⟩ := h
        subst h1 h2
        exact ((ih c hr).cons node).trans (List.Perm.swap _ _ _)

theorem chain_unlink_get (keyP data : Nat) (chain chain2 : List hash_node_t)
    (h : chain_unlink keyP chain = some (chain2, data)) :
    chain_get keyP chain = some data := by
  induction chain generalizing chain2 with
  | nil => simp [chain_unlink] at h
  | cons node next ih =>
    by_cases hk : node.key = keyP
    · simp [chain_unlink, hk] at h
      simp [chain_get, hk, h.2]
    · cases hr : chain_unlink keyP next with
      | none => simp [chain_unlink, hk, hr] at h
      | some r =>
        obtain ⟨c, d⟩ := r
        simp [chain_unlink, hk, hr] at h
        obtain ⟨-, h2⟩ := h
        subst h2
        simp [chain_get, hk, ih c hr]

theorem chain_unlink_get_other (keyP data k : Nat) (chain chain2 : List hash_node_t)
    (h : chain_unlink keyP chain = some (chain2, data)) (hne : k ≠ keyP) :
    chain_get k chain2 = chain_get k chain := by
  induction chain generalizing chain2 with
  | nil => simp [chain_unlink] at h
  | cons node next ih =>
    by_cases hk : node.key = keyP
    · simp [chain_unlink, hk] at h
      rw [← h.1]
      simp [chain_get, hk, Ne.symm hne]
    · cases hr : chain_unlink keyP next with
      | none => simp [chain_unlink, hk, hr] at h
      | some r =>
        obtain ⟨c, d⟩ := r
        simp [chain_unlink, hk, hr] at h
        obtain ⟨h1, h2⟩ := h
        subst h1 h2
        simp [chain_get, ih c hr]

theorem chain_unlink_not_mem (keyP data : Nat) (chain chain2 : List hash_node_t)
    (hn : (chain.map hash_node_t.key).Nodup)
    (h : chain_unlink keyP chain = some (chain2, data)) :
    keyP ∉ chain2.map hash_node_t.key := by
  have hp := (chain_unlink_perm keyP data chain chain2 h).map hash_node_t.key
  have := (hp.nodup_iff).mp hn
  simp only [List.map_cons, List.nodup_cons] at this
  exact this.1

theorem remove_found_eq (t : hash_table_t) (keyP data : Nat) (chain : List hash_node_t)
    (h : chain_unlink keyP (bucket t (hash_index t keyP)) = some (chain, data)) :
    hashtable_remove (some t) keyP
      = ⟨HASH_TABLE_OK,
         some { t with nodes := t.nodes.set (hash_index t keyP) chain
                       num_elements := counter_dec t.num_elements },
         [], some data⟩ := by
  simp [hashtable_remove, h]

theorem free_found_eq (t : hash_table_t) (keyP data : Nat) (chain : List hash_node_t)
    (h : chain_unlink keyP (bucket t (hash_index t keyP)) = some (chain, data)) :
    hashtable_free (some t) keyP
      = ⟨HASH_TABLE_OK,
         some { t with nodes := t.nodes.set (hash_index t keyP) chain
                       num_elements := counter_dec t.num_elements },
         if data ≠ NULL then [data] else [], none⟩ := by
  simp [hashtable_free, h]

theorem is_key_exists_after_set (t : hash_table_t) (keyP : Nat) (chain : List hash_node_t)
    (c : Nat) (h : hash_index t keyP < t.nodes.length) :
    hashtable_is_key_exists
        (some { t with nodes := t.nodes.set (hash_index t keyP) chain, num_elements := c }) keyP
      = if chain_exists keyP chain then HASH_TABLE_OK else HASH_TABLE_KEY_NOT_EXISTS := by
  have hb := bucket_set_same t (hash_index t keyP) chain c h
  simp only [hashtable_is_key_exists]
  rw [hash_index_congr { t with nodes := t.nodes.set (hash_index t keyP) chain, num_elements := c }
        t keyP rfl rfl, hb]

/-! ## Well-formedness -/

theorem mem_entries_iff (t : hash_table_t) (node : hash_node_t) :
    node ∈ entries t ↔ ∃ i, i < t.nodes.length ∧ node ∈ bucket t i := by
  unfold entries
  rw [List.mem_flatten]
  constructor
  · rintro ⟨l, hl, hn⟩
    obtain ⟨i, hi, rfl⟩ := List.mem_iff_getElem.mp hl
    exact ⟨i, hi, by rw [bucket_eq_getElem t i hi]; exact hn⟩
  · rintro ⟨i, hi, hn⟩
    exact ⟨bucket t i, bucket_mem_nodes t i hi, hn⟩

theorem mem_bucket_of_mem_entries (t : hash_table_t) (node : hash_node_t) (hp : placement t)
    (h : node ∈ entries t) : node ∈ bucket t (hash_index t node.key) := by
  obtain ⟨i, hi, hn⟩ := (mem_entries_iff t node).mp h
  rw [hp i hi node hn]
  exact hn

theorem key_mem_bucket_of_mem_entries (t : hash_table_t) (keyP : Nat) (hp : placement t)
    (h : keyP ∈ (entries t).map hash_node_t.key) :
    keyP ∈ (bucket t (hash_index t keyP)).map hash_node_t.key := by
  obtain ⟨node, hn, rfl⟩ := List.mem_map.mp h
  exact List.mem_map_of_mem _ (mem_bucket_of_mem_entries t node hp hn)

theorem bucket_sublist_entries (t : hash_table_t) (i : Nat) (h : i < t.nodes.length) :
    List.Sublist (bucket t i) (entries t) :=
  List.sublist_flatten_of_mem (bucket_mem_nodes t i h)

theorem bucket_keys_nodup (t : hash_table_t) (i : Nat) (hu : unique_keys t) :
    ((bucket t i).map hash_node_t.key).Nodup := by
  by_cases h : i < t.nodes.length
  · exact List.Nodup.sublist ((bucket_sublist_entries t i h).map _) hu
  · have : bucket t i = [] := by
      simp [bucket, List.getD_eq_getElem?_getD, List.getElem?_eq_none (not_lt.mp h)]
    simp [this]

theorem placement_set (t : hash_table_t) (i : Nat) (chain : List hash_node_t) (c : Nat)
    (hp : placement t) (hc : ∀ node ∈ chain, hash_index t node.key = i) :
    placement { t with nodes := t.nodes.set i chain, num_elements := c } := by
  intro j hj node hn
  have hj2 : j < t.nodes.length := by simpa using hj
  rw [hash_index_congr { t with nodes := t.nodes.set i chain, num_elements := c } t node.key
    rfl rfl]
  by_cases hij : i = j
  · subst hij
    rw [bucket_set_same t i chain c hj2] at hn
    exact hc node hn
  · rw [bucket_set_other t i j chain c hij] at hn
    exact hp j hj2 node hn

theorem entries_perm_of_bucket_perm (t : hash_table_t) (i : Nat) (chain : List hash_node_t)
    (c : Nat) (extra : List hash_node_t) (hi : i < t.nodes.length)
    (h : List.Perm (extra ++ chain) (bucket t i)) :
    List.Perm (extra ++ entries { t with nodes := t.nodes.set i chain, num_elements := c })
      (entries t) := by
  rw [entries_set t i chain c hi, entries_split t i hi]
  refine List.Perm.trans ?_ (List.Perm.append_left _ (List.Perm.append_right _ h))
  simp only [← List.append_assoc]
  exact List.Perm.append_right _ (List.Perm.append_right _ List.perm_append_comm)

theorem well_formed_fresh (t : hash_table_t) (keyP dataP c : Nat) (hwf : well_formed t)
    (h : chain_overwrite keyP dataP (bucket t (hash_index t keyP)) = none) :
    well_formed { t with nodes := t.nodes.set (hash_index t keyP)
                                    (⟨keyP, dataP⟩ :: bucket t (hash_index t keyP))
                         num_elements := c } := by
  obtain ⟨hsz, hlen, hp, hu⟩ := hwf
  have hi : hash_index t keyP < t.nodes.length := hlen ▸ hash_index_lt t keyP hsz
  refine ⟨hsz, by simpa using hlen, ?_, ?_⟩
  · apply placement_set t _ _ c hp
    intro node hn
    rcases List.mem_cons.mp hn with rfl | hn
    · exact hash_index_congr _ _ _ rfl rfl
    · exact hp _ hi node hn
  · have hnot : keyP ∉ (entries t).map hash_node_t.key := fun hm =>
      (chain_overwrite_eq_none keyP dataP _).mp h (key_mem_bucket_of_mem_entries t keyP hp hm)
    unfold unique_keys
    rw [entries_set t _ _ c hi]
    have hm : List.Perm
        ((t.nodes.take (hash_index t keyP)).flatten
          ++ ((⟨keyP, dataP⟩ : hash_node_t) :: bucket t (hash_index t keyP)
            ++ (t.nodes.drop (hash_index t keyP + 1)).flatten))
        (⟨keyP, dataP⟩ :: entries t) := by
      rw [entries_split t _ hi]
      exact List.perm_middle
    rw [(hm.map hash_node_t.key).nodup_iff]
    simp only [List.map_cons, List.nodup_cons]
    exact ⟨hnot, hu⟩

theorem entries_perm_fresh (t : hash_table_t) (i c : Nat) (node : hash_node_t)
    (hi : i < t.nodes.length) :
    List.Perm (entries { t with nodes := t.nodes.set i (node :: bucket t i), num_elements := c })
      (node :: entries t) := by
  rw [entries_set t _ _ c hi, entries_split t _ hi]
  exact List.perm_middle

theorem well_formed_overwrite (t : hash_table_t) (keyP dataP c : Nat) (chain : List hash_node_t)
    (freed : List Nat) (hwf : well_formed t)
    (h : chain_overwrite keyP dataP (bucket t (hash_index t keyP)) = some (chain, freed)) :
    well_formed { t with nodes := t.nodes.set (hash_index t keyP) chain, num_elements := c } := by
  obtain ⟨hsz, hlen, hp, hu⟩ := hwf
  have hi : hash_index t keyP < t.nodes.length := hlen ▸ hash_index_lt t keyP hsz
  have hkeys := chain_overwrite_keys keyP dataP _ chain freed h
  refine ⟨hsz, by simpa using hlen, ?_, ?_⟩
  · apply placement_set t _ _ c hp
    intro node hn
    have : node.key ∈ (bucket t (hash_index t keyP)).map hash_node_t.key := by
      rw [← hkeys]
      exact List.mem_map_of_mem _ hn
    obtain ⟨node2, hn2, he⟩ := List.mem_map.mp this
    rw [← he]
    exact hp _ hi node2 hn2
  · unfold unique_keys at hu ⊢
    rw [entries_set t _ _ c hi]
    rw [entries_split t _ hi] at hu
    simpa [hkeys] using hu

theorem well_formed_unlink (t : hash_table_t) (keyP data c : Nat) (chain : List hash_node_t)
    (hwf : well_formed t)
    (h : chain_unlink keyP (bucket t (hash_index t keyP)) = some (chain, data)) :
    well_formed { t with nodes := t.nodes.set (hash_index t keyP) chain, num_elements := c } := by
  obtain ⟨hsz, hlen, hp, hu⟩ := hwf
  have hi : hash_index t keyP < t.nodes.length := hlen ▸ hash_index_lt t keyP hsz
  have hperm := chain_unlink_perm keyP data _ chain h
  refine ⟨hsz, by simpa using hlen, ?_, ?_⟩
  · apply placement_set t _ _ c hp
    intro node hn
    exact hp _ hi node (hperm.mem_iff.mpr (List.mem_cons_of_mem _ hn))
  · have he := entries_perm_of_bucket_perm t (hash_index t keyP) chain c [⟨keyP, data⟩] hi
      hperm.symm
    unfold unique_keys at hu ⊢
    have := ((he.map hash_node_t.key).nodup_iff).mpr hu
    simp only [List.singleton_append, List.map_cons, List.nodup_cons] at this
    exact this.2

/-! ## Insertion followed by lookup -/

/-- C1: in a well-formed table, when the node allocation succeeds,
`hashtable_get` of a key right after `hashtable_insert` of that key with a
value returns `HASH_TABLE_OK` and yields that value, whether the key was bound
before or not. -/
theorem C1_insert_then_get (t : hash_table_t) (keyP dataP : Nat) (hwf : well_formed t) :
    hashtable_get (hashtable_insert (some t) keyP dataP true).tbl keyP
      = (HASH_TABLE_OK, dataP) :=
  get_after_insert t keyP dataP hwf.1 hwf.2.1

/-- C1 at the table with keys 1, 5, 9: the absent key 13 and the bound key 5. -/
theorem C1_insert_then_get_witness :
    well_formed table_1_5_9 ∧
    hashtable_get (hashtable_insert (some table_1_5_9) 13 113 true).tbl 13
      = (HASH_TABLE_OK, 113) ∧
    hashtable_get (hashtable_insert (some table_1_5_9) 5 77 true).tbl 5
      = (HASH_TABLE_OK, 77) :=
  ⟨by with_unfolding_all decide, C1_insert_then_get table_1_5_9 13 113 (by with_unfolding_all decide),
    C1_insert_then_get table_1_5_9 5 77 (by with_unfolding_all decide)⟩

theorem insert_well_formed (t : hash_table_t) (keyP dataP : Nat) (ok : Bool)
    (hwf : well_formed t) :
    ∃ t2, (hashtable_insert (some t) keyP dataP ok).tbl = some t2 ∧ well_formed t2 ∧
      t2.size = t.size ∧ t2.hashfunc = t.hashfunc := by
  cases hr : chain_overwrite keyP dataP (bucket t (hash_index t keyP)) with
  | some r =>
    obtain ⟨chain, freed⟩ := r
    rw [insert_overwrite_eq t keyP dataP ok chain freed hr]
    exact ⟨_, rfl, well_formed_overwrite t keyP dataP _ chain freed hwf hr, rfl, rfl⟩
  | none =>
    cases ok with
    | true =>
      rw [insert_fresh_eq t keyP dataP hr]
      exact ⟨_, rfl, well_formed_fresh t keyP dataP _ hwf hr, rfl, rfl⟩
    | false => exact ⟨t, by simp [hashtable_insert, hr], hwf, rfl, rfl⟩

/-- C2: in a well-formed table, inserting a key (the node allocation
succeeding) and inserting the same key again makes the second
`hashtable_insert` return `HASH_TABLE_INSERT_OVERWRITTEN_DATA`, leaves exactly
one entry with that key in the whole table, leaves the live-entry counter at
its value after the first insert, and makes `hashtable_get` yield the second
value. -/
theorem C2_insert_same_key_twice (t : hash_table_t) (keyP v1 v2 : Nat) (ok2 : Bool)
    (hwf : well_formed t) :
    ∃ t1 t2, (hashtable_insert (some t) keyP v1 true).tbl = some t1 ∧
      (hashtable_insert (some t1) keyP v2 ok2).rc = HASH_TABLE_INSERT_OVERWRITTEN_DATA ∧
      (hashtable_insert (some t1) keyP v2 ok2).tbl = some t2 ∧
      ((entries t2).map hash_node_t.key).count keyP = 1 ∧
      t2.num_elements = t1.num_elements ∧
      hashtable_get (some t2) keyP = (HASH_TABLE_OK, v2) := by
  obtain ⟨t1, h1, hwf1, -, -⟩ := insert_well_formed t keyP v1 true hwf
  have hget1 := get_after_insert t keyP v1 hwf.1 hwf.2.1
  rw [h1] at hget1
  have hi1 : hash_index t1 keyP < t1.nodes.length := hwf1.2.1 ▸ hash_index_lt t1 keyP hwf1.1
  cases hr : chain_overwrite keyP v2 (bucket t1 (hash_index t1 keyP)) with
  | none =>
    have hnone := (chain_get_eq_none keyP _).mpr ((chain_overwrite_eq_none keyP v2 _).mp hr)
    simp [hashtable_get, hnone] at hget1
  | some r =>
    obtain ⟨chain, freed⟩ := r
    have hwf2 := well_formed_overwrite t1 keyP v2 t1.num_elements chain freed hwf1 hr
    refine ⟨t1, { t1 with nodes := t1.nodes.set (hash_index t1 keyP) chain }, h1,
      ?_, ?_, ?_, rfl, ?_⟩
    · rw [insert_overwrite_eq t1 keyP v2 ok2 chain freed hr]
    · rw [insert_overwrite_eq t1 keyP v2 ok2 chain freed hr]
    · apply List.count_eq_one_of_mem hwf2.2.2.2
      have hb := bucket_set_same t1 (hash_index t1 keyP) chain t1.num_elements hi1
      have hsub := bucket_sublist_entries
        { t1 with nodes := t1.nodes.set (hash_index t1 keyP) chain } (hash_index t1 keyP)
        (by simpa using hi1)
      rw [hb] at hsub
      have hmem : (⟨keyP, v2⟩ : hash_node_t) ∈ chain :=
        chain_get_mem keyP v2 chain (chain_overwrite_get keyP v2 _ chain freed hr)
      exact List.mem_map_of_mem hash_node_t.key (hsub.subset hmem)
    · rw [get_after_set t1 keyP chain t1.num_elements hi1,
        chain_overwrite_get keyP v2 _ chain freed hr]

/-- C2 at the table with keys 1, 5, 9: key 13 is inserted twice, the second
time with a failing allocator, which the overwrite does not consult. -/
theorem C2_insert_same_key_twice_witness :
    well_formed table_1_5_9 ∧
    ∃ t1 t2, (hashtable_insert (some table_1_5_9) 13 7 true).tbl = some t1 ∧
      (hashtable_insert (some t1) 13 8 false).rc = HASH_TABLE_INSERT_OVERWRITTEN_DATA ∧
      (hashtable_insert (some t1) 13 8 false).tbl = some t2 ∧
      ((entries t2).map hash_node_t.key).count 13 = 1 ∧
      t2.num_elements = t1.num_elements ∧
      hashtable_get (some t2) 13 = (HASH_TABLE_OK, 8) :=
  ⟨by with_unfolding_all decide, C2_insert_same_key_twice table_1_5_9 13 7 8 false (by with_unfolding_all decide)⟩

/-! ## Removal -/

theorem unlink_of_present (t : hash_table_t) (keyP : Nat) (hwf : well_formed t)
    (hk : keyP ∈ (entries t).map hash_node_t.key) :
    ∃ chain data, chain_unlink keyP (bucket t (hash_index t keyP)) = some (chain, data) ∧
      keyP ∉ chain.map hash_node_t.key := by
  have hb := key_mem_bucket_of_mem_entries t keyP hwf.2.2.1 hk
  cases hr : chain_unlink keyP (bucket t (hash_index t keyP)) with
  | none => exact absurd hb ((chain_unlink_eq_none keyP _).mp hr)
  | some r =>
    obtain ⟨chain, data⟩ := r
    exact ⟨chain, data, rfl,
      chain_unlink_not_mem keyP data _ chain (bucket_keys_nodup t _ hwf.2.2.2) hr⟩

/-- C3: in a well-formed table holding the key, `hashtable_free` and
`hashtable_remove` of the key return `HASH_TABLE_OK`, after which
`hashtable_is_key_exists` returns `HASH_TABLE_KEY_NOT_EXISTS` and
`hashtable_get` returns `HASH_TABLE_KEY_NOT_EXISTS` with the `NULL` value. -/
theorem C3_removed_key_is_absent (t : hash_table_t) (keyP : Nat) (hwf : well_formed t)
    (hk : keyP ∈ (entries t).map hash_node_t.key) :
    ((hashtable_free (some t) keyP).rc = HASH_TABLE_OK ∧
      hashtable_is_key_exists (hashtable_free (some t) keyP).tbl keyP
        = HASH_TABLE_KEY_NOT_EXISTS ∧
      hashtable_get (hashtable_free (some t) keyP).tbl keyP
        = (HASH_TABLE_KEY_NOT_EXISTS, NULL)) ∧
    ((hashtable_remove (some t) keyP).rc = HASH_TABLE_OK ∧
      hashtable_is_key_exists (hashtable_remove (some t) keyP).tbl keyP
        = HASH_TABLE_KEY_NOT_EXISTS ∧
      hashtable_get (hashtable_remove (some t) keyP).tbl keyP
        = (HASH_TABLE_KEY_NOT_EXISTS, NULL)) := by
  obtain ⟨chain, data, hr, hnot⟩ := unlink_of_present t keyP hwf hk
  have hi : hash_index t keyP < t.nodes.length := hwf.2.1 ▸ hash_index_lt t keyP hwf.1
  have hex : chain_exists keyP chain = false := by
    cases he : chain_exists keyP chain with
    | false => rfl
    | true => exact absurd ((chain_exists_eq_true keyP chain).mp he) hnot
  have hget : chain_get keyP chain = none := (chain_get_eq_none keyP chain).mpr hnot
  rw [free_found_eq t keyP data chain hr, remove_found_eq t keyP data chain hr]
  simp only []
  rw [is_key_exists_after_set t keyP chain _ hi, get_after_set t keyP chain _ hi, hex, hget]
  simp

/-- C3 at the table with keys 1, 5, 9 for the key 5, in the middle of its
chain. -/
theorem C3_removed_key_is_absent_witness :
    (well_formed table_1_5_9 ∧ 5 ∈ (entries table_1_5_9).map hash_node_t.key) ∧
    ((hashtable_free (some table_1_5_9) 5).rc = HASH_TABLE_OK ∧
      hashtable_is_key_exists (hashtable_free (some table_1_5_9) 5).tbl 5
        = HASH_TABLE_KEY_NOT_EXISTS ∧
      hashtable_get (hashtable_free (some table_1_5_9) 5).tbl 5
        = (HASH_TABLE_KEY_NOT_EXISTS, NULL)) ∧
    ((hashtable_remove (some table_1_5_9) 5).rc = HASH_TABLE_OK ∧
      hashtable_is_key_exists (hashtable_remove (some table_1_5_9) 5).tbl 5
        = HASH_TABLE_KEY_NOT_EXISTS ∧
      hashtable_get (hashtable_remove (some table_1_5_9) 5).tbl 5
        = (HASH_TABLE_KEY_NOT_EXISTS, NULL)) :=
  ⟨⟨by with_unfolding_all decide, by with_unfolding_all decide⟩, C3_removed_key_is_absent table_1_5_9 5 (by with_unfolding_all decide) (by with_unfolding_all decide)⟩

theorem unlink_of_get (t : hash_table_t) (keyP v : Nat)
    (hb : hashtable_get (some t) keyP = (HASH_TABLE_OK, v)) :
    ∃ chain, chain_unlink keyP (bucket t (hash_index t keyP)) = some (chain, v) := by
  cases hr : chain_unlink keyP (bucket t (hash_index t keyP)) with
  | none =>
    have hnone := (chain_get_eq_none keyP _).mpr ((chain_unlink_eq_none keyP _).mp hr)
    simp [hashtable_get, hnone] at hb
  | some r =>
    obtain ⟨chain, data⟩ := r
    have hg := chain_unlink_get keyP data _ chain hr
    simp [hashtable_get, hg] at hb
    exact ⟨chain, by rw [hb]⟩

/-- C9: for every table (well-formed or not) and key bound to a value `v`,
`hashtable_remove` returns `HASH_TABLE_OK`, stores exactly `v` through the
output pointer, calls the destructor not at all, and decrements the live-entry
counter by one: in the arithmetic of the counter's unsigned type always, and
as a plain `t.num_elements - 1` whenever the counter is at least 1. -/
theorem C9_remove_hands_over_value (t : hash_table_t) (keyP v : Nat)
    (hb : hashtable_get (some t) keyP = (HASH_TABLE_OK, v)) :
    (hashtable_remove (some t) keyP).rc = HASH_TABLE_OK ∧
    (hashtable_remove (some t) keyP).out = some v ∧
    (hashtable_remove (some t) keyP).freed = [] ∧
    ∃ t2, (hashtable_remove (some t) keyP).tbl = some t2 ∧
      (t2.num_elements + 1) % HASH_SIZE_MOD = t.num_elements % HASH_SIZE_MOD ∧
      (1 ≤ t.num_elements → t.num_elements < HASH_SIZE_MOD →
        t2.num_elements + 1 = t.num_elements) := by
  obtain ⟨chain, hr⟩ := unlink_of_get t keyP v hb
  rw [remove_found_eq t keyP v chain hr]
  refine ⟨rfl, rfl, rfl, _, rfl, ?_, ?_⟩
  · simp only [counter_dec, HASH_SIZE_MOD]
    split <;> omega
  · simp only [counter_dec, HASH_SIZE_MOD]
    split <;> omega

/-- C9 at the table with keys 1, 5, 9 for the key 5 bound to 105. -/
theorem C9_remove_hands_over_value_witness :
    hashtable_get (some table_1_5_9) 5 = (HASH_TABLE_OK, 105) ∧
    (hashtable_remove (some table_1_5_9) 5).rc = HASH_TABLE_OK ∧
    (hashtable_remove (some table_1_5_9) 5).out = some 105 ∧
    (hashtable_remove (some table_1_5_9) 5).freed = [] ∧
    ∃ t2, (hashtable_remove (some table_1_5_9) 5).tbl = some t2 ∧
      (t2.num_elements + 1) % HASH_SIZE_MOD = table_1_5_9.num_elements % HASH_SIZE_MOD ∧
      (1 ≤ table_1_5_9.num_elements → table_1_5_9.num_elements < HASH_SIZE_MOD →
        t2.num_elements + 1 = table_1_5_9.num_elements) :=
  ⟨by with_unfolding_all decide, C9_remove_hands_over_value table_1_5_9 5 105 (by with_unfolding_all decide)⟩

/-! ## The destructor on overwrite -/

theorem chain_overwrite_freed (keyP dataP v1 : Nat) (chain : List hash_node_t)
    (h : chain_get keyP chain = some v1) :
    ∃ chain2, chain_overwrite keyP dataP chain
      = some (chain2, if v1 ≠ NULL then [v1] else []) := by
  induction chain with
  | nil => simp [chain_get] at h
  | cons node next ih =>
    by_cases hk : node.key = keyP
    · simp [chain_get, hk] at h
      exact ⟨{ node with data := dataP } :: next, by simp [chain_overwrite, hk, h]⟩
    · simp [chain_get, hk] at h
      obtain ⟨c, hc⟩ := ih h
      exact ⟨node :: c, by simp [chain_overwrite, hk, hc]⟩

/-- C10, as stated, fails: in the well-formed two-bucket table where key 10 is
bound to `NULL`, the overwriting `hashtable_insert (t, 10, 66)` does not call
the destructor at all, so it is not true that every overwrite calls it exactly
once on the previous value. -/
theorem C10_counterexample :
    ¬ (∀ (t : hash_table_t) (keyP v1 v2 : Nat), well_formed t →
        hashtable_get (some t) keyP = (HASH_TABLE_OK, v1) →
        (hashtable_insert (some t) keyP v2 true).freed = [v1]) := by
  intro h
  have := h table_key10_null 10 NULL 66 (by with_unfolding_all decide) (by with_unfolding_all decide)
  revert this
  with_unfolding_all decide

/-- C10, amended: for every table (well-formed or not), key bound to a value
`v1` and new value `v2`, the overwriting `hashtable_insert` returns
`HASH_TABLE_INSERT_OVERWRITTEN_DATA` and calls the destructor exactly once, on
`v1` and on nothing else, when `v1` is not `NULL`, and does not call it at all
when `v1` is `NULL`. -/
theorem C10_overwrite_releases_old_value (t : hash_table_t) (keyP v1 v2 : Nat) (ok : Bool)
    (hb : hashtable_get (some t) keyP = (HASH_TABLE_OK, v1)) :
    (hashtable_insert (some t) keyP v2 ok).rc = HASH_TABLE_INSERT_OVERWRITTEN_DATA ∧
    (hashtable_insert (some t) keyP v2 ok).freed = if v1 ≠ NULL then [v1] else [] := by
  have hg : chain_get keyP (bucket t (hash_index t keyP)) = some v1 := by
    cases hc : chain_get keyP (bucket t (hash_index t keyP)) with
    | none => simp [hashtable_get, hc] at hb
    | some d =>
      simp [hashtable_get, hc] at hb
      rw [hb]
  obtain ⟨chain, hc⟩ := chain_overwrite_freed keyP v2 v1 _ hg
  rw [insert_overwrite_eq t keyP v2 ok chain _ hc]
  exact ⟨rfl, rfl⟩

/-- C10 amended at the spec's scenario: two buckets, key 10 bound to A = 65,
then to B = 66: the destructor is called exactly once, on A. -/
theorem C10_overwrite_releases_old_value_witness :
    hashtable_get (some table_key10) 10 = (HASH_TABLE_OK, 65) ∧
    (hashtable_insert (some table_key10) 10 66 true).rc = HASH_TABLE_INSERT_OVERWRITTEN_DATA ∧
    (hashtable_insert (some table_key10) 10 66 true).freed = [65] :=
  ⟨by with_unfolding_all decide, C10_overwrite_releases_old_value table_key10 10 65 66 true (by with_unfolding_all decide)⟩

/-! ## Bulk iteration -/

theorem visit_chain_calls (chain : List hash_node_t) (n : Nat) :
    (visit_chain chain n).2 = chain.map (fun node => (node.key, node.data)) := by
  induction chain generalizing n with
  | nil => rfl
  | cons node next ih => simp [visit_chain, ih]

theorem visit_chain_counter_le (chain : List hash_node_t) (n : Nat) :
    (visit_chain chain n).1 ≤ n + chain.length := by
  induction chain generalizing n with
  | nil => simp [visit_chain]
  | cons node next ih =>
    simp only [visit_chain, List.length_cons]
    have h1 := ih ((n + 1) % UINT_MOD)
    have h2 : (n + 1) % UINT_MOD ≤ n + 1 := Nat.mod_le _ _
    omega

theorem visit_buckets_all (t : hash_table_t) (hlen : t.nodes.length = t.size)
    (hrange : t.size < UINT_MOD) :
    ∀ (fuel i n : Nat), i ≤ t.size → t.size - i < fuel →
      n + ((t.nodes.drop i).flatten).length ≤ t.num_elements →
      visit_buckets t fuel i n
        = some ((t.nodes.drop i).flatten.map (fun node => (node.key, node.data))) := by
  intro fuel
  induction fuel with
  | zero => intro i n _ hf _; omega
  | succ fuel ih =>
    intro i n hi hf hc
    by_cases hcond : n < t.num_elements ∧ i < t.size
    · have hil : i < t.nodes.length := hlen ▸ hcond.2
      have hdrop : t.nodes.drop i = bucket t i :: t.nodes.drop (i + 1) := by
        rw [bucket_eq_getElem t i hil]
        exact List.drop_eq_getElem_cons hil
      have hmod : (i + 1) % UINT_MOD = i + 1 := Nat.mod_eq_of_lt (by omega)
      have hle := visit_chain_counter_le (bucket t i) n
      rw [hdrop, List.flatten_cons, List.length_append] at hc
      have hrec := ih (i + 1) (visit_chain (bucket t i) n).1 (by omega) (by omega) (by omega)
      simp only [visit_buckets, hcond, and_self, if_true, hmod, hrec, visit_chain_calls]
      rw [hdrop, List.flatten_cons, List.map_append]
    · have hempty : (t.nodes.drop i).flatten = [] := by
        by_cases hlt : i < t.size
        · have : ¬ n < t.num_elements := fun h => hcond ⟨h, hlt⟩
          apply List.eq_nil_of_length_eq_zero
          omega
        · have : t.nodes.length ≤ i := by omega
          simp [List.drop_eq_nil_of_le this]
      simp only [visit_buckets, hcond, if_false, hempty, List.map_nil]

/-- For a well-formed table whose bucket count is in the range of the
`unsigned int` bucket index and whose live-entry counter is the number `N` of
entries in its chains, `hashtable_apply_funct_on_elements` ends (any fuel above
the bucket count is enough), returns `HASH_TABLE_OK`, and calls the visitor on
exactly the stored (key, value) pairs, once each, bucket after bucket and in
chain order within a bucket; that is `N` calls. -/
theorem apply_visits_every_entry_once (t : hash_table_t) (fuel : Nat)
    (hwf : well_formed t) (hc : counter_ok t) (hrange : t.size < UINT_MOD)
    (hfuel : t.size < fuel) :
    hashtable_apply_funct_on_elements (some t) fuel
      = some (HASH_TABLE_OK, (entries t).map (fun node => (node.key, node.data))) ∧
    ((entries t).map (fun node => (node.key, node.data))).length = t.num_elements := by
  have h := visit_buckets_all t hwf.2.1 hrange fuel 0 0 (Nat.zero_le _) (by omega)
    (by simp only [List.drop_zero]; exact (Nat.zero_add _).trans_le (le_of_eq hc.symm))
  simp only [List.drop_zero] at h
  refine ⟨?_, ?_⟩
  · simp only [hashtable_apply_funct_on_elements, h]
    rfl
  · rw [List.length_map]
    exact hc.symm

/-- The table with keys 1, 5, 9 is visited whole, all three in bucket 1 between empty
buckets. -/
theorem apply_visits_every_entry_once_example :
    (well_formed table_1_5_9 ∧ counter_ok table_1_5_9 ∧ table_1_5_9.size < UINT_MOD
      ∧ table_1_5_9.size < 5) ∧
    hashtable_apply_funct_on_elements (some table_1_5_9) 5
      = some (HASH_TABLE_OK, [(9, 109), (5, 105), (1, 101)]) ∧
    ((entries table_1_5_9).map (fun node => (node.key, node.data))).length
      = table_1_5_9.num_elements :=
  ⟨⟨by with_unfolding_all decide, by with_unfolding_all decide, by with_unfolding_all decide, by with_unfolding_all decide⟩,
    apply_visits_every_entry_once table_1_5_9 5 (by with_unfolding_all decide) (by with_unfolding_all decide) (by with_unfolding_all decide)
      (by with_unfolding_all decide)⟩

/-! ## Resizing -/

theorem set_bucket_self (t : hash_table_t) (i : Nat) (hi : i < t.nodes.length) :
    t.nodes.set i (bucket t i) = t.nodes := by
  apply List.ext_getElem?
  intro j
  by_cases hij : i = j
  · subst hij
    rw [List.getElem?_set_self hi, bucket_eq_getElem t i hi, List.getElem?_eq_getElem hi]
  · rw [List.getElem?_set_ne hij]

theorem lookup_iff_mem (t : hash_table_t) (keyP data : Nat) (hwf : well_formed t) :
    chain_get keyP (bucket t (hash_index t keyP)) = some data
      ↔ (⟨keyP, data⟩ : hash_node_t) ∈ entries t := by
  obtain ⟨hsz, hlen, hp, hu⟩ := hwf
  have hi : hash_index t keyP < t.nodes.length := hlen ▸ hash_index_lt t keyP hsz
  constructor
  · intro h
    exact (bucket_sublist_entries t _ hi).subset (chain_get_mem keyP data _ h)
  · intro h
    exact chain_get_of_mem keyP data _ (bucket_keys_nodup t _ hu)
      (mem_bucket_of_mem_entries t ⟨keyP, data⟩ hp h)

theorem get_eq_of_entries_perm (t1 t2 : hash_table_t) (keyP : Nat) (h1 : well_formed t1)
    (h2 : well_formed t2) (hperm : List.Perm (entries t1) (entries t2)) :
    hashtable_get (some t1) keyP = hashtable_get (some t2) keyP := by
  have hiff : ∀ data, chain_get keyP (bucket t1 (hash_index t1 keyP)) = some data
      ↔ chain_get keyP (bucket t2 (hash_index t2 keyP)) = some data := fun data => by
    rw [lookup_iff_mem t1 keyP data h1, lookup_iff_mem t2 keyP data h2, hperm.mem_iff]
  simp only [hashtable_get]
  cases ha : chain_get keyP (bucket t1 (hash_index t1 keyP)) with
  | some d => rw [(hiff d).mp ha]
  | none =>
    cases hb : chain_get keyP (bucket t2 (hash_index t2 keyP)) with
    | some d => rw [(hiff d).mpr hb] at ha; cases ha
    | none => rfl

theorem well_formed_congr (a b : hash_table_t) (hs : a.size = b.size) (hn : a.nodes = b.nodes)
    (hf : a.hashfunc = b.hashfunc) (h : well_formed b) : well_formed a := by
  obtain ⟨hsz, hlen, hp, hu⟩ := h
  refine ⟨hs ▸ hsz, by rw [hn, hs]; exact hlen, ?_, ?_⟩
  · intro i hi node hnode
    have hb : bucket a i = bucket b i := by simp [bucket, hn]
    have := hp i (hn ▸ hi) node (hb ▸ hnode)
    simpa [hash_index, hs, hf] using this
  · simpa [unique_keys, entries, hn] using hu

theorem get_congr (a b : hash_table_t) (keyP : Nat) (hs : a.size = b.size)
    (hn : a.nodes = b.nodes) (hf : a.hashfunc = b.hashfunc) :
    hashtable_get (some a) keyP = hashtable_get (some b) keyP := by
  simp [hashtable_get, bucket, hash_index, hs, hn, hf]

theorem placement_congr (a b : hash_table_t) (hs : a.size = b.size) (hn : a.nodes = b.nodes)
    (hf : a.hashfunc = b.hashfunc) (h : placement b) : placement a := by
  intro i hi node hnode
  have hb : bucket a i = bucket b i := by simp [bucket, hn]
  have := h i (hn ▸ hi) node (hb ▸ hnode)
  simpa [hash_index, hs, hf] using this

theorem well_formed_empty (sizeP c : Nat) (f : Nat → Nat) (h : 1 ≤ sizeP) :
    well_formed ⟨sizeP, c, List.replicate sizeP [], f⟩ := by
  refine ⟨h, by simp, ?_, ?_⟩
  · intro i _ node hnode
    have : bucket ⟨sizeP, c, List.replicate sizeP [], f⟩ i = [] := by
      simp only [bucket, List.getD_eq_getElem?_getD, List.getElem?_replicate]
      split <;> rfl
    rw [this] at hnode
    cases hnode
  · simp [unique_keys, entries]

/-! ## The live-entry counter after `hashtable_create` -/

/-- C7, evaluated: `hashtable_create` gives the requested number of empty
buckets but leaves in the live-entry counter whatever the allocated memory
held (`uninit`). With 4 buckets and memory holding 7, the counter is 7 for an
empty table, the counter invariant fails, and after inserting the three
distinct keys 1, 5, 9 the counter is 10, not 3. -/
theorem C7_create_leaves_counter_unset :
    (∀ sizeP uninit : Nat,
      (hashtable_create sizeP none true true uninit).map contents
        = some (sizeP, uninit, List.replicate sizeP [])) ∧
    (hashtable_create 4 none true true 7).map contents = some (4, 7, [[], [], [], []]) ∧
    (hashtable_create 4 none true true 7).map (fun t => decide (counter_ok t)) = some false ∧
    (insert_all (hashtable_create 4 none true true 7) [(1, 101), (5, 105), (9, 109)]).map
      contents = some (4, 10, [[], [⟨9, 109⟩, ⟨5, 105⟩, ⟨1, 101⟩], [], []]) := by
  refine ⟨fun _ _ => rfl, ?_, ?_, ?_⟩ <;> with_unfolding_all decide

/-! ## Textual dump -/

/-- C8, evaluated on the spec's scenario: the table with keys 1, 5, 9 in one
bucket of four is dumped into a 64-byte buffer with 64 bytes of capacity (the
three lines take 63). `hashtable_dump_content` returns `HASH_TABLE_OK` and
charges the three lines to the capacity, leaving 1, but every line is written
at the start of the buffer over the previous one: the buffer holds the single
line of the last entry, not three lines. -/
theorem C8_dump_keeps_last_line_only :
    well_formed table_1_5_9 ∧ counter_ok table_1_5_9 ∧
    ((entries table_1_5_9).map (fun node => (dump_line ptr_hex node).length)).sum = 63 ∧
    (hashtable_dump_content ptr_hex (some table_1_5_9) dots_64 64 5).map
        (fun r => (r.1, c_string r.2.1, r.2.2))
      = some (HASH_TABLE_OK, "Key 0x1 Element 0x65\n".toList, 1) ∧
    (hashtable_dump_content ptr_hex (some table_1_5_9) dots_64 64 5).map
        (fun r => r.2.1.count (Char.ofNat 10)) = some 1 := by
  refine ⟨?_, ?_, ?_, ?_, ?_⟩ <;> with_unfolding_all decide

/-! ## Teardown -/

theorem destroy_chain_eq (chain : List hash_node_t) :
    destroy_chain chain = (chain.map hash_node_t.data).filter (fun d => decide (d ≠ NULL)) := by
  induction chain with
  | nil => rfl
  | cons node next ih =>
    by_cases h : node.data = NULL
    · simp [destroy_chain, ih, h]
    · simp [destroy_chain, ih, h]

theorem destroy_buckets_eq (t : hash_table_t) :
    ∀ (todo n : Nat), n + todo = t.nodes.length →
      destroy_buckets t todo n
        = (((t.nodes.drop n).flatten).map hash_node_t.data).filter
            (fun d => decide (d ≠ NULL)) := by
  intro todo
  induction todo with
  | zero =>
    intro n hn
    have : t.nodes.drop n = [] := List.drop_eq_nil_of_le (by omega)
    simp [destroy_buckets, this]
  | succ todo ih =>
    intro n hn
    have hi : n < t.nodes.length := by omega
    have hdrop : t.nodes.drop n = bucket t n :: t.nodes.drop (n + 1) := by
      rw [bucket_eq_getElem t n hi]
      exact List.drop_eq_getElem_cons hi
    rw [hdrop, List.flatten_cons, List.map_append, List.filter_append]
    simp only [destroy_buckets]
    rw [ih (n + 1) (by omega), destroy_chain_eq]

/-- C11: for every table (its bucket array having `size` slots) whose entries
all hold non-`NULL` values, `hashtable_destroy` returns `HASH_TABLE_OK`,
releases the table, and calls the destructor on exactly the stored values, once
per entry, bucket after bucket and in chain order within a bucket. -/
theorem C11_destroy_releases_every_value_once (t : hash_table_t)
    (hlen : t.nodes.length = t.size) (hnn : ∀ node ∈ entries t, node.data ≠ NULL) :
    hashtable_destroy (some t)
      = ⟨HASH_TABLE_OK, none, (entries t).map hash_node_t.data, none⟩ := by
  have h := destroy_buckets_eq t t.size 0 (by omega)
  simp only [List.drop_zero] at h
  have hall : (((t.nodes.flatten).map hash_node_t.data).filter (fun d => decide (d ≠ NULL)))
      = (t.nodes.flatten).map hash_node_t.data := by
    rw [List.filter_eq_self]
    intro d hd
    obtain ⟨node, hn, rfl⟩ := List.mem_map.mp hd
    exact decide_eq_true (hnn node hn)
  simp only [hashtable_destroy, h, hall, entries]

/-- C11 at the table with keys 1, 5, 9. -/
theorem C11_destroy_releases_every_value_once_witness :
    (table_1_5_9.nodes.length = table_1_5_9.size ∧
      ∀ node ∈ entries table_1_5_9, node.data ≠ NULL) ∧
    hashtable_destroy (some table_1_5_9) = ⟨HASH_TABLE_OK, none, [109, 105, 101], none⟩ :=
  ⟨⟨by with_unfolding_all decide, by with_unfolding_all decide⟩,
    C11_destroy_releases_every_value_once table_1_5_9 (by with_unfolding_all decide)
      (by with_unfolding_all decide)⟩

/-! ## Bulk iteration under a counter that does not count the entries -/

theorem visit_chain_counter_eq (chain : List hash_node_t) (n : Nat)
    (h : n + chain.length < UINT_MOD) : (visit_chain chain n).1 = n + chain.length := by
  induction chain generalizing n with
  | nil => simp [visit_chain]
  | cons node next ih =>
    simp only [visit_chain, List.length_cons] at h ⊢
    have hm : (n + 1) % UINT_MOD = n + 1 := Nat.mod_eq_of_lt (by omega)
    rw [hm, ih (n + 1) (by omega)]
    omega

theorem entries_before_succ (t : hash_table_t) (i : Nat) (hi : i < t.nodes.length) :
    entries_before t (i + 1) = entries_before t i + (bucket t i).length := by
  simp only [entries_before, List.take_succ, List.getElem?_eq_getElem hi, Option.toList_some,
    List.flatten_append, List.length_append, bucket_eq_getElem t i hi]
  simp

theorem entries_before_le (t : hash_table_t) (i : Nat) :
    entries_before t i ≤ (entries t).length := by
  have h : entries t = (t.nodes.take i).flatten ++ (t.nodes.drop i).flatten := by
    rw [← List.flatten_append, List.take_append_drop]
    rfl
  rw [h, List.length_append]
  exact Nat.le_add_right _ _

theorem visit_buckets_prefix (t : hash_table_t) (hlen : t.nodes.length = t.size)
    (hrange : t.size < UINT_MOD) (hsmall : (entries t).length < UINT_MOD) :
    ∀ (fuel i : Nat), i ≤ t.size → t.size - i < fuel →
      ∃ k, i + k ≤ t.size ∧
        visit_buckets t fuel i (entries_before t i)
          = some ((((t.nodes.drop i).take k).flatten).map (fun node => (node.key, node.data))) ∧
        (∀ m < k, entries_before t (i + m) < t.num_elements) ∧
        (i + k = t.size ∨ t.num_elements ≤ entries_before t (i + k)) := by
  intro fuel
  induction fuel with
  | zero => intro i _ hf; omega
  | succ fuel ih =>
    intro i hi hf
    by_cases hcond : entries_before t i < t.num_elements ∧ i < t.size
    · have hil : i < t.nodes.length := hlen ▸ hcond.2
      have hdrop : t.nodes.drop i = bucket t i :: t.nodes.drop (i + 1) := by
        rw [bucket_eq_getElem t i hil]
        exact List.drop_eq_getElem_cons hil
      have hmod : (i + 1) % UINT_MOD = i + 1 := Nat.mod_eq_of_lt (by omega)
      have hsucc := entries_before_succ t i hil
      have hle := entries_before_le t (i + 1)
      have hcnt : (visit_chain (bucket t i) (entries_before t i)).1 = entries_before t (i + 1) := by
        rw [hsucc]
        exact visit_chain_counter_eq _ _ (by omega)
      obtain ⟨k, hk, hv, hbelow, hstop⟩ := ih (i + 1) (by omega) (by omega)
      refine ⟨k + 1, by omega, ?_, ?_, ?_⟩
      · simp only [visit_buckets, hcond, and_self, if_true, hmod, hcnt, hv, visit_chain_calls]
        rw [hdrop, List.take_succ_cons, List.flatten_cons, List.map_append]
      · intro m hm
        cases m with
        | zero => exact hcond.1
        | succ m =>
          have := hbelow m (by omega)
          rwa [show i + (m + 1) = i + 1 + m by omega]
      · rwa [show i + (k + 1) = i + 1 + k by omega]
    · refine ⟨0, by omega, ?_, fun m hm => absurd hm (Nat.not_lt_zero m), ?_⟩
      · simp only [visit_buckets, hcond, if_false, List.take_zero, List.flatten_nil, List.map_nil]
      · by_cases hlt : i < t.size
        · right
          have : ¬ entries_before t i < t.num_elements := fun h => hcond ⟨h, hlt⟩
          simpa using this
        · left
          omega

/-- C12, as stated, fails: in the one-bucket table whose chain holds three
entries and whose live-entry counter is 1, `hashtable_apply_funct_on_elements`
calls the visitor three times, more often than the counter says. -/
theorem C12_counterexample :
    ∃ calls, hashtable_apply_funct_on_elements (some table_counter_1) 2
        = some (HASH_TABLE_OK, calls) ∧
      ¬ calls.length ≤ table_counter_1.num_elements :=
  ⟨[(2, 102), (1, 101), (0, 100)], by with_unfolding_all decide, by with_unfolding_all decide⟩

/-- C12, amended: for every table, whatever its live-entry counter `c` (bucket
count and number of entries within the range of the `unsigned int` locals),
`hashtable_apply_funct_on_elements` ends, returns `HASH_TABLE_OK`, and has
called the visitor on the whole chains of the first `j` buckets and on nothing
else, where no bucket is started once `c` entries have been visited (before
each of the `j` buckets fewer than `c` entries had been visited) and the walk
stops at the first bucket boundary where `c` entries have been visited, even if
buckets remain. -/
theorem C12_apply_stops_between_buckets (t : hash_table_t) (fuel : Nat)
    (hlen : t.nodes.length = t.size) (hrange : t.size < UINT_MOD)
    (hsmall : (entries t).length < UINT_MOD) (hfuel : t.size < fuel) :
    ∃ j, j ≤ t.size ∧
      hashtable_apply_funct_on_elements (some t) fuel
        = some (HASH_TABLE_OK,
            ((t.nodes.take j).flatten).map (fun node => (node.key, node.data))) ∧
      (∀ i < j, entries_before t i < t.num_elements) ∧
      (j = t.size ∨ t.num_elements ≤ entries_before t j) := by
  obtain ⟨k, hk, hv, hbelow, hstop⟩ :=
    visit_buckets_prefix t hlen hrange hsmall fuel 0 (Nat.zero_le _) (by omega)
  have h0 : entries_before t 0 = 0 := by simp [entries_before]
  rw [h0] at hv
  simp only [List.drop_zero, Nat.zero_add] at hv hbelow hstop hk
  refine ⟨k, hk, ?_, hbelow, hstop⟩
  simp only [hashtable_apply_funct_on_elements, hv]

/-- C12 amended at the one-bucket table with three entries and counter 1: the
single bucket is visited whole, it was started with 0 entries visited. -/
theorem C12_apply_stops_between_buckets_witness :
    (table_counter_1.nodes.length = table_counter_1.size ∧ table_counter_1.size < UINT_MOD ∧
      (entries table_counter_1).length < UINT_MOD ∧ table_counter_1.size < 2) ∧
    ∃ j, j ≤ table_counter_1.size ∧
      hashtable_apply_funct_on_elements (some table_counter_1) 2
        = some (HASH_TABLE_OK,
            ((table_counter_1.nodes.take j).flatten).map (fun node => (node.key, node.data))) ∧
      (∀ i < j, entries_before table_counter_1 i < table_counter_1.num_elements) ∧
      (j = table_counter_1.size ∨ table_counter_1.num_elements ≤ entries_before table_counter_1 j) :=
  ⟨⟨by with_unfolding_all decide, by with_unfolding_all decide, by with_unfolding_all decide,
      by with_unfolding_all decide⟩,
    C12_apply_stops_between_buckets table_counter_1 2 (by with_unfolding_all decide)
      (by with_unfolding_all decide) (by with_unfolding_all decide)
      (by with_unfolding_all decide)⟩

/-! ## Failure paths -/

/-- C13, evaluated: inserting the absent key 13 into the table with keys 1, 5,
9 when the node allocation fails leaves bucket count, counter and chains as
they were, but the result code is the integer `-1`, which is none of the
codes that `hashtable_rc_code2string` names: it is rendered as the unknown
code. -/
theorem C13_insert_allocation_failure_code :
    well_formed table_1_5_9 ∧
    hashtable_is_key_exists (some table_1_5_9) 13 = HASH_TABLE_KEY_NOT_EXISTS ∧
    (hashtable_insert (some table_1_5_9) 13 113 false).rc = undeclared (-1) ∧
    hashtable_rc_code2string (hashtable_insert (some table_1_5_9) 13 113 false).rc
      = "UNKNOWN hashtable_rc_t" ∧
    (hashtable_insert (some table_1_5_9) 13 113 false).tbl.map contents
      = some (contents table_1_5_9) ∧
    (hashtable_insert (some table_1_5_9) 13 113 false).freed = [] := by
  refine ⟨?_, ?_, ?_, ?_, ?_, ?_⟩ <;> with_unfolding_all decide

theorem remove_absent_eq (t : hash_table_t) (keyP : Nat)
    (h : chain_unlink keyP (bucket t (hash_index t keyP)) = none) :
    hashtable_remove (some t) keyP = ⟨HASH_TABLE_KEY_NOT_EXISTS, some t, [], none⟩ := by
  simp [hashtable_remove, h]

theorem free_absent_eq (t : hash_table_t) (keyP : Nat)
    (h : chain_unlink keyP (bucket t (hash_index t keyP)) = none) :
    hashtable_free (some t) keyP = ⟨HASH_TABLE_KEY_NOT_EXISTS, some t, [], none⟩ := by
  simp [hashtable_free, h]

theorem key_mem_entries_of_mem_bucket (t : hash_table_t) (keyP i : Nat)
    (hi : i < t.nodes.length) (h : keyP ∈ (bucket t i).map hash_node_t.key) :
    keyP ∈ (entries t).map hash_node_t.key :=
  ((bucket_sublist_entries t i hi).map hash_node_t.key).subset h

theorem unlink_none_iff (t : hash_table_t) (keyP : Nat) (hwf : well_formed t) :
    chain_unlink keyP (bucket t (hash_index t keyP)) = none
      ↔ keyP ∉ (entries t).map hash_node_t.key := by
  have hi : hash_index t keyP < t.nodes.length := hwf.2.1 ▸ hash_index_lt t keyP hwf.1
  rw [chain_unlink_eq_none]
  constructor
  · exact fun h hm => h (key_mem_bucket_of_mem_entries t keyP hwf.2.2.1 hm)
  · exact fun h hm => h (key_mem_entries_of_mem_bucket t keyP _ hi hm)

/-- C14: in a well-formed table, `hashtable_free` and `hashtable_remove`
return `HASH_TABLE_KEY_NOT_EXISTS` exactly when the key is stored nowhere in
the table, and in that case they leave the table as it was (same chains, same
counter), call the destructor not at all and write no value out. -/
theorem C14_removal_of_absent_key (t : hash_table_t) (keyP : Nat) (hwf : well_formed t) :
    ((hashtable_free (some t) keyP).rc = HASH_TABLE_KEY_NOT_EXISTS
      ↔ keyP ∉ (entries t).map hash_node_t.key) ∧
    ((hashtable_remove (some t) keyP).rc = HASH_TABLE_KEY_NOT_EXISTS
      ↔ keyP ∉ (entries t).map hash_node_t.key) ∧
    (keyP ∉ (entries t).map hash_node_t.key →
      hashtable_free (some t) keyP = ⟨HASH_TABLE_KEY_NOT_EXISTS, some t, [], none⟩ ∧
      hashtable_remove (some t) keyP = ⟨HASH_TABLE_KEY_NOT_EXISTS, some t, [], none⟩) := by
  have hiff := unlink_none_iff t keyP hwf
  cases hr : chain_unlink keyP (bucket t (hash_index t keyP)) with
  | none =>
    have hab := hiff.mp hr
    rw [free_absent_eq t keyP hr, remove_absent_eq t keyP hr]
    exact ⟨⟨fun _ => hab, fun _ => rfl⟩, ⟨fun _ => hab, fun _ => rfl⟩, fun _ => ⟨rfl, rfl⟩⟩
  | some r =>
    obtain ⟨chain, data⟩ := r
    have hpres : ¬ keyP ∉ (entries t).map hash_node_t.key := fun h => by
      rw [hiff.mpr h] at hr
      cases hr
    rw [free_found_eq t keyP data chain hr, remove_found_eq t keyP data chain hr]
    refine ⟨⟨fun h => ?_, fun h => absurd h hpres⟩, ⟨fun h => ?_, fun h => absurd h hpres⟩,
      fun h => absurd h hpres⟩
    · cases h
    · cases h

/-- C14 at the table with keys 1, 5, 9 for the absent key 13, which hashes to
the occupied bucket. -/
theorem C14_removal_of_absent_key_witness :
    well_formed table_1_5_9 ∧
    ((hashtable_free (some table_1_5_9) 13).rc = HASH_TABLE_KEY_NOT_EXISTS
      ↔ 13 ∉ (entries table_1_5_9).map hash_node_t.key) ∧
    ((hashtable_remove (some table_1_5_9) 13).rc = HASH_TABLE_KEY_NOT_EXISTS
      ↔ 13 ∉ (entries table_1_5_9).map hash_node_t.key) ∧
    (13 ∉ (entries table_1_5_9).map hash_node_t.key →
      hashtable_free (some table_1_5_9) 13
        = ⟨HASH_TABLE_KEY_NOT_EXISTS, some table_1_5_9, [], none⟩ ∧
      hashtable_remove (some table_1_5_9) 13
        = ⟨HASH_TABLE_KEY_NOT_EXISTS, some table_1_5_9, [], none⟩) :=
  ⟨by with_unfolding_all decide,
    C14_removal_of_absent_key table_1_5_9 13 (by with_unfolding_all decide)⟩

/-! ## The absent table -/

/-- C15, as stated, fails for `hashtable_dump_content`: called with a `NULL`
table, a 64-byte buffer of dots and a capacity of 64, it returns
`HASH_TABLE_BAD_PARAMETER_HASHTABLE` only after writing the text
`HASH_TABLE_BAD_PARAMETER_HASHTABLE` into the caller's buffer, which is no
longer what it was. -/
theorem C15_counterexample :
    ∃ buffer, hashtable_dump_content ptr_hex none dots_64 64 0
        = some (HASH_TABLE_BAD_PARAMETER_HASHTABLE, buffer, 64) ∧
      buffer ≠ dots_64 ∧ c_string buffer = "HASH_TABLE_BAD_PARAMETER_HASHTABLE".toList :=
  ⟨_, rfl, by with_unfolding_all decide, by with_unfolding_all decide⟩

theorem c_string_append_nul (l rest : List Char) (h : ∀ c ∈ l, c ≠ Char.ofNat 0) :
    c_string (l ++ Char.ofNat 0 :: rest) = l := by
  induction l with
  | nil => simp [c_string]
  | cons c cs ih =>
    have hc : c ≠ Char.ofNat 0 := h c (List.mem_cons_self _ _)
    have ih2 := ih (fun d hd => h d (List.mem_cons_of_mem _ hd))
    simp only [List.cons_append, c_string, if_neg hc]
    exact congrArg (List.cons c) ih2

theorem snprintf_beyond (buffer : List Char) (size : Nat) (text : List Char) :
    (snprintf buffer size text).1.drop size = buffer.drop size := by
  unfold snprintf
  split
  · rfl
  · rename_i hs
    have hlen : (text.take (size - 1) ++ [Char.ofNat 0]).length ≤ size := by
      simp only [List.length_append, List.length_take, List.length_singleton]
      omega
    simp only []
    rw [List.drop_append_eq_append_drop, List.drop_eq_nil_of_le hlen, List.nil_append,
      List.drop_drop]
    congr 1
    omega

theorem snprintf_c_string (buffer : List Char) (size : Nat) (text : List Char)
    (hs : 0 < size) (hno : ∀ c ∈ text, c ≠ Char.ofNat 0) :
    c_string (snprintf buffer size text).1 = text.take (size - 1) := by
  unfold snprintf
  rw [if_neg (by omega)]
  simp only [List.append_assoc, List.singleton_append]
  exact c_string_append_nul _ _ (fun c hc => hno c (List.mem_of_mem_take hc))

theorem size_t_of_int_eq (r : Int) (h0 : 0 ≤ r) (h : r < (HASH_SIZE_MOD : Int)) :
    size_t_of_int r = r.toNat := by
  simp only [size_t_of_int, Int.emod_eq_of_lt h0 h]

theorem size_t_of_int_neg (r : Int) (h0 : r < 0) (h : -(2147483648 : Int) ≤ r) :
    34 ≤ size_t_of_int r - 1 := by
  have hm : (HASH_SIZE_MOD : Int) = 18446744073709551616 := by
    simp only [HASH_SIZE_MOD]
    norm_num
  have h1 : r % (HASH_SIZE_MOD : Int) = r + (HASH_SIZE_MOD : Int) := by
    rw [← Int.add_emod_self]
    exact Int.emod_eq_of_lt (by omega) (by omega)
  simp only [size_t_of_int, h1]
  omega

theorem snprintf_whole (buffer : List Char) (size : Nat) (text : List Char)
    (hs : text.length ≤ size - 1) (h0 : size ≠ 0) :
    (snprintf buffer size text).1
      = text ++ Char.ofNat 0 :: buffer.drop (text.length + 1) := by
  unfold snprintf
  rw [if_neg h0]
  simp only [List.take_of_length_le hs, List.length_append, List.length_singleton,
    List.append_assoc, List.singleton_append]

/-- C15, amended: with a `NULL` table every operation returns
`HASH_TABLE_BAD_PARAMETER_HASHTABLE`, the table stays `NULL`, no visitor and
no destructor call is made and nothing is written out, except that
`hashtable_get` sets its output value to `NULL` and `hashtable_dump_content`
first prints the text `HASH_TABLE_BAD_PARAMETER_HASHTABLE` with `snprintf` at
the start of the caller's buffer, leaving the capacity count as it was: with a
capacity of 0 the buffer is left as it was; with a capacity `r > 0` no byte
from position `r` on is touched and the buffer holds, as a C string, the first
`r - 1` characters of the text; with a negative capacity, which the conversion
to `size_t` turns into a huge size, all 34 characters of the text and the NUL
are written, whatever the size of the buffer. -/
theorem C15_null_table (keyP dataP sizeP uninit fuel : Nat) (ok calloc_ok : Bool)
    (oracle : Nat → Bool) (released : Nat → hash_node_t → Option hash_node_t)
    (ptr_fmt : Nat → List Char) (buffer : List Char) (remaining : Int) :
    hashtable_destroy none = ⟨HASH_TABLE_BAD_PARAMETER_HASHTABLE, none, [], none⟩ ∧
    hashtable_is_key_exists none keyP = HASH_TABLE_BAD_PARAMETER_HASHTABLE ∧
    hashtable_apply_funct_on_elements none fuel
      = some (HASH_TABLE_BAD_PARAMETER_HASHTABLE, []) ∧
    hashtable_dump_content ptr_fmt none buffer remaining fuel
      = some (HASH_TABLE_BAD_PARAMETER_HASHTABLE,
          (snprintf buffer (size_t_of_int remaining)
            "HASH_TABLE_BAD_PARAMETER_HASHTABLE".toList).1,
          remaining) ∧
    hashtable_insert none keyP dataP ok
      = ⟨HASH_TABLE_BAD_PARAMETER_HASHTABLE, none, [], none⟩ ∧
    hashtable_free none keyP = ⟨HASH_TABLE_BAD_PARAMETER_HASHTABLE, none, [], none⟩ ∧
    hashtable_remove none keyP = ⟨HASH_TABLE_BAD_PARAMETER_HASHTABLE, none, [], none⟩ ∧
    hashtable_get none keyP = (HASH_TABLE_BAD_PARAMETER_HASHTABLE, NULL) ∧
    hashtable_resize none sizeP calloc_ok oracle uninit released
      = some ⟨HASH_TABLE_BAD_PARAMETER_HASHTABLE, none, [], none⟩ ∧
    hashtable_dump_content ptr_fmt none buffer 0 fuel
      = some (HASH_TABLE_BAD_PARAMETER_HASHTABLE, buffer, 0) ∧
    (0 < remaining → remaining < (HASH_SIZE_MOD : Int) →
      ∃ buffer2, hashtable_dump_content ptr_fmt none buffer remaining fuel
          = some (HASH_TABLE_BAD_PARAMETER_HASHTABLE, buffer2, remaining) ∧
        buffer2.drop remaining.toNat = buffer.drop remaining.toNat ∧
        c_string buffer2
          = "HASH_TABLE_BAD_PARAMETER_HASHTABLE".toList.take (remaining.toNat - 1)) ∧
    (remaining < 0 → -(2147483648 : Int) ≤ remaining →
      hashtable_dump_content ptr_fmt none buffer remaining fuel
        = some (HASH_TABLE_BAD_PARAMETER_HASHTABLE,
            "HASH_TABLE_BAD_PARAMETER_HASHTABLE".toList ++ Char.ofNat 0 :: buffer.drop 35,
            remaining)) := by
  refine ⟨rfl, rfl, rfl, rfl, rfl, rfl, rfl, rfl, rfl, rfl, fun hpos hlt => ?_,
    fun hneg hmin => ?_⟩
  · have hsz := size_t_of_int_eq remaining (le_of_lt hpos) hlt
    refine ⟨_, rfl, ?_, ?_⟩
    · rw [hsz]
      exact snprintf_beyond _ _ _
    · rw [hsz]
      exact snprintf_c_string _ _ _ (by omega) (by decide)
  · have hsz := size_t_of_int_neg remaining hneg hmin
    have hw := snprintf_whole buffer (size_t_of_int remaining)
      "HASH_TABLE_BAD_PARAMETER_HASHTABLE".toList hsz (by omega)
    show some (HASH_TABLE_BAD_PARAMETER_HASHTABLE,
        (snprintf buffer (size_t_of_int remaining)
          "HASH_TABLE_BAD_PARAMETER_HASHTABLE".toList).1, remaining) = _
    rw [hw]
    rfl

/-- C15 amended at a 64-byte buffer of dots: with a capacity of 10 the buffer
holds the first 9 characters of the text and is untouched from position 10 on;
with a capacity of -1 the whole text and the NUL are written. -/
theorem C15_null_table_witness :
    (((0 : Int) < 10 ∧ (10 : Int) < (HASH_SIZE_MOD : Int)) ∧
      ∃ buffer2, hashtable_dump_content ptr_hex none dots_64 10 0
          = some (HASH_TABLE_BAD_PARAMETER_HASHTABLE, buffer2, 10) ∧
        buffer2.drop (10 : Int).toNat = dots_64.drop (10 : Int).toNat ∧
        c_string buffer2
          = "HASH_TABLE_BAD_PARAMETER_HASHTABLE".toList.take ((10 : Int).toNat - 1)) ∧
    (((-1 : Int) < 0 ∧ -(2147483648 : Int) ≤ -1) ∧
      hashtable_dump_content ptr_hex none dots_64 (-1) 0
        = some (HASH_TABLE_BAD_PARAMETER_HASHTABLE,
            "HASH_TABLE_BAD_PARAMETER_HASHTABLE".toList ++ Char.ofNat 0 :: dots_64.drop 35,
            -1)) :=
  ⟨⟨⟨by decide, by decide⟩,
      (C15_null_table 0 0 0 0 0 true true (fun _ => true) intact ptr_hex dots_64
        10).2.2.2.2.2.2.2.2.2.2.1 (by decide) (by decide)⟩,
    ⟨⟨by decide, by decide⟩,
      (C15_null_table 0 0 0 0 0 true true (fun _ => true) intact ptr_hex dots_64
        (-1)).2.2.2.2.2.2.2.2.2.2.2 (by decide) (by decide)⟩⟩

/-! ## The counter invariant -/

theorem chain_overwrite_length (keyP dataP : Nat) (chain chain2 : List hash_node_t)
    (freed : List Nat) (h : chain_overwrite keyP dataP chain = some (chain2, freed)) :
    chain2.length = chain.length := by
  have := congrArg List.length (chain_overwrite_keys keyP dataP chain chain2 freed h)
  simpa using this

theorem entries_length_set (t : hash_table_t) (i c : Nat) (chain : List hash_node_t)
    (hi : i < t.nodes.length) :
    (entries { t with nodes := t.nodes.set i chain, num_elements := c }).length
        + (bucket t i).length
      = (entries t).length + chain.length := by
  rw [entries_set t i chain c hi, entries_split t i hi]
  simp only [List.length_append]
  omega

theorem counter_inc_eq (c : Nat) (h : c + 1 < HASH_SIZE_MOD) : counter_inc c = c + 1 := by
  simp only [counter_inc]
  exact Nat.mod_eq_of_lt h

theorem counter_dec_eq (c : Nat) (h0 : 1 ≤ c) (h : c + 1 < HASH_SIZE_MOD) :
    counter_dec c + 1 = c := by
  simp only [counter_dec]
  rw [if_neg (by omega), Nat.mod_eq_of_lt (by omega)]
  omega

theorem overwrite_of_present (t : hash_table_t) (keyP dataP : Nat) (hp : placement t)
    (hk : keyP ∈ (entries t).map hash_node_t.key) :
    ∃ chain freed,
      chain_overwrite keyP dataP (bucket t (hash_index t keyP)) = some (chain, freed) := by
  cases hr : chain_overwrite keyP dataP (bucket t (hash_index t keyP)) with
  | none =>
    exact absurd (key_mem_bucket_of_mem_entries t keyP hp hk)
      ((chain_overwrite_eq_none keyP dataP _).mp hr)
  | some r => exact ⟨r.1, r.2, rfl⟩

theorem fresh_of_absent (t : hash_table_t) (keyP dataP : Nat)
    (hi : hash_index t keyP < t.nodes.length)
    (hk : keyP ∉ (entries t).map hash_node_t.key) :
    chain_overwrite keyP dataP (bucket t (hash_index t keyP)) = none :=
  (chain_overwrite_eq_none keyP dataP _).mpr
    (fun hm => hk (key_mem_entries_of_mem_bucket t keyP _ hi hm))

theorem counter_ok_unlink (t : hash_table_t) (keyP data : Nat) (chain : List hash_node_t)
    (hi : hash_index t keyP < t.nodes.length) (hc : counter_ok t)
    (hr : t.num_elements + 1 < HASH_SIZE_MOD)
    (h : chain_unlink keyP (bucket t (hash_index t keyP)) = some (chain, data)) :
    counter_ok { t with nodes := t.nodes.set (hash_index t keyP) chain
                        num_elements := counter_dec t.num_elements } ∧
    counter_dec t.num_elements + 1 = t.num_elements := by
  have hlen := entries_length_set t (hash_index t keyP) (counter_dec t.num_elements) chain hi
  have hperm := (chain_unlink_perm keyP data _ chain h).length_eq
  simp only [List.length_cons] at hperm
  unfold counter_ok at hc ⊢
  have hdec := counter_dec_eq t.num_elements (by omega) hr
  refine ⟨?_, hdec⟩
  show counter_dec t.num_elements = _
  omega

/-- C16: in a well-formed table whose live-entry counter is the number of
entries in the chains (and below the largest value of its type), the counter
is again the number of entries after `hashtable_insert`, `hashtable_free` and
`hashtable_remove`: a fresh insert raises it by one, an overwriting insert
leaves it, a successful removal lowers it by one, and the removal of an absent
key leaves the table as it was. -/
theorem C16_counter_invariant_preserved (t : hash_table_t) (keyP dataP : Nat)
    (hwf : well_formed t) (hc : counter_ok t) (hr : t.num_elements + 1 < HASH_SIZE_MOD) :
    (keyP ∉ (entries t).map hash_node_t.key →
      ∃ t2, (hashtable_insert (some t) keyP dataP true).tbl = some t2 ∧
        counter_ok t2 ∧ t2.num_elements = t.num_elements + 1) ∧
    (keyP ∈ (entries t).map hash_node_t.key → ∀ ok,
      ∃ t2, (hashtable_insert (some t) keyP dataP ok).tbl = some t2 ∧
        counter_ok t2 ∧ t2.num_elements = t.num_elements) ∧
    (keyP ∈ (entries t).map hash_node_t.key →
      ∃ t2, (hashtable_free (some t) keyP).tbl = some t2 ∧
        counter_ok t2 ∧ t2.num_elements + 1 = t.num_elements) ∧
    (keyP ∈ (entries t).map hash_node_t.key →
      ∃ t2, (hashtable_remove (some t) keyP).tbl = some t2 ∧
        counter_ok t2 ∧ t2.num_elements + 1 = t.num_elements) ∧
    (keyP ∉ (entries t).map hash_node_t.key →
      (hashtable_free (some t) keyP).tbl = some t ∧
      (hashtable_remove (some t) keyP).tbl = some t) := by
  have hi : hash_index t keyP < t.nodes.length := hwf.2.1 ▸ hash_index_lt t keyP hwf.1
  refine ⟨fun hk => ?_, fun hk ok => ?_, fun hk => ?_, fun hk => ?_, fun hk => ?_⟩
  · have hfresh := fresh_of_absent t keyP dataP hi hk
    rw [insert_fresh_eq t keyP dataP hfresh]
    have hlen := entries_length_set t (hash_index t keyP) (counter_inc t.num_elements)
      (⟨keyP, dataP⟩ :: bucket t (hash_index t keyP)) hi
    have hinc := counter_inc_eq t.num_elements hr
    refine ⟨_, rfl, ?_, hinc⟩
    unfold counter_ok at hc ⊢
    simp only [List.length_cons] at hlen
    show counter_inc t.num_elements = _
    omega
  · obtain ⟨chain, freed, hov⟩ := overwrite_of_present t keyP dataP hwf.2.2.1 hk
    rw [insert_overwrite_eq t keyP dataP ok chain freed hov]
    have hlen := entries_length_set t (hash_index t keyP) t.num_elements chain hi
    have hcl := chain_overwrite_length keyP dataP _ chain freed hov
    refine ⟨_, rfl, ?_, rfl⟩
    unfold counter_ok at hc ⊢
    show t.num_elements = _
    omega
  · obtain ⟨chain, data, hun, -⟩ := unlink_of_present t keyP hwf hk
    rw [free_found_eq t keyP data chain hun]
    obtain ⟨h1, h2⟩ := counter_ok_unlink t keyP data chain hi hc hr hun
    exact ⟨_, rfl, h1, h2⟩
  · obtain ⟨chain, data, hun, -⟩ := unlink_of_present t keyP hwf hk
    rw [remove_found_eq t keyP data chain hun]
    obtain ⟨h1, h2⟩ := counter_ok_unlink t keyP data chain hi hc hr hun
    exact ⟨_, rfl, h1, h2⟩
  · have hun := (unlink_none_iff t keyP hwf).mpr hk
    rw [free_absent_eq t keyP hun, remove_absent_eq t keyP hun]
    exact ⟨rfl, rfl⟩

/-- C16 at the table with keys 1, 5, 9 and counter 3, for the bound key 5. -/
theorem C16_counter_invariant_preserved_witness :
    (well_formed table_1_5_9 ∧ counter_ok table_1_5_9 ∧
      table_1_5_9.num_elements + 1 < HASH_SIZE_MOD) ∧
    (5 ∉ (entries table_1_5_9).map hash_node_t.key →
      ∃ t2, (hashtable_insert (some table_1_5_9) 5 77 true).tbl = some t2 ∧
        counter_ok t2 ∧ t2.num_elements = table_1_5_9.num_elements + 1) ∧
    (5 ∈ (entries table_1_5_9).map hash_node_t.key → ∀ ok,
      ∃ t2, (hashtable_insert (some table_1_5_9) 5 77 ok).tbl = some t2 ∧
        counter_ok t2 ∧ t2.num_elements = table_1_5_9.num_elements) ∧
    (5 ∈ (entries table_1_5_9).map hash_node_t.key →
      ∃ t2, (hashtable_free (some table_1_5_9) 5).tbl = some t2 ∧
        counter_ok t2 ∧ t2.num_elements + 1 = table_1_5_9.num_elements) ∧
    (5 ∈ (entries table_1_5_9).map hash_node_t.key →
      ∃ t2, (hashtable_remove (some table_1_5_9) 5).tbl = some t2 ∧
        counter_ok t2 ∧ t2.num_elements + 1 = table_1_5_9.num_elements) ∧
    (5 ∉ (entries table_1_5_9).map hash_node_t.key →
      (hashtable_free (some table_1_5_9) 5).tbl = some table_1_5_9 ∧
      (hashtable_remove (some table_1_5_9) 5).tbl = some table_1_5_9) :=
  ⟨⟨by with_unfolding_all decide, by with_unfolding_all decide, by with_unfolding_all decide⟩,
    C16_counter_invariant_preserved table_1_5_9 5 77 (by with_unfolding_all decide)
      (by with_unfolding_all decide) (by with_unfolding_all decide)⟩

/-! ## The placement invariant and key uniqueness -/

theorem insert_placement (t : hash_table_t) (keyP dataP : Nat) (ok : Bool) (hsz : 1 ≤ t.size)
    (hlen : t.nodes.length = t.size) (hp : placement t) :
    ∃ t2, (hashtable_insert (some t) keyP dataP ok).tbl = some t2 ∧ t2.size = t.size ∧
      t2.nodes.length = t2.size ∧ t2.hashfunc = t.hashfunc ∧ placement t2 := by
  have hi : hash_index t keyP < t.nodes.length := hlen ▸ hash_index_lt t keyP hsz
  cases hr : chain_overwrite keyP dataP (bucket t (hash_index t keyP)) with
  | some r =>
    obtain ⟨chain, freed⟩ := r
    rw [insert_overwrite_eq t keyP dataP ok chain freed hr]
    refine ⟨_, rfl, rfl, by simpa using hlen, rfl, ?_⟩
    apply placement_set t _ _ t.num_elements hp
    intro node hn
    have hkeys := chain_overwrite_keys keyP dataP _ chain freed hr
    have : node.key ∈ (bucket t (hash_index t keyP)).map hash_node_t.key := by
      rw [← hkeys]
      exact List.mem_map_of_mem _ hn
    obtain ⟨node2, hn2, he⟩ := List.mem_map.mp this
    rw [← he]
    exact hp _ hi node2 hn2
  | none =>
    cases ok with
    | false => exact ⟨t, by simp [hashtable_insert, hr], rfl, hlen, rfl, hp⟩
    | true =>
      rw [insert_fresh_eq t keyP dataP hr]
      refine ⟨_, rfl, rfl, by simpa using hlen, rfl, ?_⟩
      apply placement_set t _ _ _ hp
      intro node hn
      rcases List.mem_cons.mp hn with rfl | hn
      · exact hash_index_congr _ _ _ rfl rfl
      · exact hp _ hi node hn

theorem unlink_placement (t : hash_table_t) (keyP data c : Nat) (chain : List hash_node_t)
    (hsz : 1 ≤ t.size) (hlen : t.nodes.length = t.size) (hp : placement t)
    (h : chain_unlink keyP (bucket t (hash_index t keyP)) = some (chain, data)) :
    placement { t with nodes := t.nodes.set (hash_index t keyP) chain, num_elements := c } := by
  have hi : hash_index t keyP < t.nodes.length := hlen ▸ hash_index_lt t keyP hsz
  apply placement_set t _ _ c hp
  intro node hn
  exact hp _ hi node
    ((chain_unlink_perm keyP data _ chain h).mem_iff.mpr (List.mem_cons_of_mem _ hn))

theorem remove_placement (t : hash_table_t) (keyP : Nat) (hsz : 1 ≤ t.size)
    (hlen : t.nodes.length = t.size) (hp : placement t) :
    ∃ t2, (hashtable_remove (some t) keyP).tbl = some t2 ∧ t2.size = t.size ∧
      t2.nodes.length = t2.size ∧ t2.hashfunc = t.hashfunc ∧ placement t2 := by
  cases hr : chain_unlink keyP (bucket t (hash_index t keyP)) with
  | none =>
    rw [remove_absent_eq t keyP hr]
    exact ⟨t, rfl, rfl, hlen, rfl, hp⟩
  | some r =>
    obtain ⟨chain, data⟩ := r
    rw [remove_found_eq t keyP data chain hr]
    exact ⟨_, rfl, rfl, by simpa using hlen, rfl,
      unlink_placement t keyP data _ chain hsz hlen hp hr⟩

theorem free_placement (t : hash_table_t) (keyP : Nat) (hsz : 1 ≤ t.size)
    (hlen : t.nodes.length = t.size) (hp : placement t) :
    ∃ t2, (hashtable_free (some t) keyP).tbl = some t2 ∧ t2.size = t.size ∧
      t2.nodes.length = t2.size ∧ t2.hashfunc = t.hashfunc ∧ placement t2 := by
  cases hr : chain_unlink keyP (bucket t (hash_index t keyP)) with
  | none =>
    rw [free_absent_eq t keyP hr]
    exact ⟨t, rfl, rfl, hlen, rfl, hp⟩
  | some r =>
    obtain ⟨chain, data⟩ := r
    rw [free_found_eq t keyP data chain hr]
    exact ⟨_, rfl, rfl, by simpa using hlen, rfl,
      unlink_placement t keyP data _ chain hsz hlen hp hr⟩

theorem remove_hashfunc (t : hash_table_t) (keyP : Nat) :
    ((hashtable_remove (some t) keyP).tbl.getD t).hashfunc = t.hashfunc := by
  cases hr : chain_unlink keyP (bucket t (hash_index t keyP)) with
  | none => rw [remove_absent_eq t keyP hr]; rfl
  | some r =>
    obtain ⟨chain, data⟩ := r
    rw [remove_found_eq t keyP data chain hr]
    rfl

theorem remove_well_formed (t : hash_table_t) (keyP : Nat) (hwf : well_formed t) :
    ∃ t2, (hashtable_remove (some t) keyP).tbl = some t2 ∧ well_formed t2 := by
  cases hr : chain_unlink keyP (bucket t (hash_index t keyP)) with
  | none =>
    rw [remove_absent_eq t keyP hr]
    exact ⟨t, rfl, hwf⟩
  | some r =>
    obtain ⟨chain, data⟩ := r
    rw [remove_found_eq t keyP data chain hr]
    exact ⟨_, rfl, well_formed_unlink t keyP data _ chain hwf hr⟩

theorem free_well_formed (t : hash_table_t) (keyP : Nat) (hwf : well_formed t) :
    ∃ t2, (hashtable_free (some t) keyP).tbl = some t2 ∧ well_formed t2 := by
  cases hr : chain_unlink keyP (bucket t (hash_index t keyP)) with
  | none =>
    rw [free_absent_eq t keyP hr]
    exact ⟨t, rfl, hwf⟩
  | some r =>
    obtain ⟨chain, data⟩ := r
    rw [free_found_eq t keyP data chain hr]
    exact ⟨_, rfl, well_formed_unlink t keyP data _ chain hwf hr⟩

theorem create_unique_keys (sizeP uninit : Nat) (hashfuncP : Option (Nat → Nat))
    (t : hash_table_t) (h : hashtable_create sizeP hashfuncP true true uninit = some t) :
    unique_keys t := by
  simp only [hashtable_create, Bool.not_true, Bool.false_eq_true, if_false,
    Option.some.injEq] at h
  subst h
  simp [unique_keys, entries]

/-! ## Membership against lookup, and the other keys -/

theorem chain_exists_iff_get (keyP : Nat) (chain : List hash_node_t) :
    chain_exists keyP chain = true ↔ ∃ data, chain_get keyP chain = some data := by
  induction chain with
  | nil => simp [chain_exists, chain_get]
  | cons node next ih =>
    by_cases hk : node.key = keyP
    · simp [chain_exists, chain_get, hk]
    · simp [chain_exists, chain_get, hk, ih]

theorem exists_agrees_with_get (t : hash_table_t) (keyP : Nat) :
    (hashtable_is_key_exists (some t) keyP = HASH_TABLE_OK
      ↔ (hashtable_get (some t) keyP).1 = HASH_TABLE_OK) ∧
    (hashtable_is_key_exists (some t) keyP = HASH_TABLE_KEY_NOT_EXISTS
      ↔ (hashtable_get (some t) keyP).1 = HASH_TABLE_KEY_NOT_EXISTS) := by
  have h := chain_exists_iff_get keyP (bucket t (hash_index t keyP))
  simp only [hashtable_is_key_exists, hashtable_get]
  cases hg : chain_get keyP (bucket t (hash_index t keyP)) with
  | none =>
    have he : chain_exists keyP (bucket t (hash_index t keyP)) = false := by
      cases hc : chain_exists keyP (bucket t (hash_index t keyP)) with
      | false => rfl
      | true =>
        obtain ⟨d, hd⟩ := h.mp hc
        rw [hg] at hd
        cases hd
    simp [he]
  | some d =>
    have he : chain_exists keyP (bucket t (hash_index t keyP)) = true := h.mpr ⟨d, hg⟩
    simp [he]

theorem exists_walk_eq (keyP : Nat) (t : hash_table_t) (chain : List hash_node_t) :
    exists_walk keyP chain t
      = ⟨if chain_exists keyP chain then HASH_TABLE_OK else HASH_TABLE_KEY_NOT_EXISTS,
         some t, [], none⟩ := by
  induction chain with
  | nil => rfl
  | cons node next ih =>
    by_cases hk : node.key = keyP
    · simp [exists_walk, chain_exists, hk]
    · simp [exists_walk, chain_exists, hk, ih]

theorem get_walk_eq (keyP : Nat) (t : hash_table_t) (chain : List hash_node_t) :
    get_walk keyP chain t
      = match chain_get keyP chain with
        | some data => ⟨HASH_TABLE_OK, some t, [], some data⟩
        | none => ⟨HASH_TABLE_KEY_NOT_EXISTS, some t, [], some NULL⟩ := by
  induction chain with
  | nil => rfl
  | cons node next ih =>
    by_cases hk : node.key = keyP
    · simp [get_walk, chain_get, hk]
    · simp [get_walk, chain_get, hk, ih]

/-- C19: for every table and key, `hashtable_is_key_exists` returns
`HASH_TABLE_OK` exactly when `hashtable_get` does, and
`HASH_TABLE_KEY_NOT_EXISTS` exactly when `hashtable_get` does; and neither call
modifies the table: run as state transformers, which give the same result
codes and output value, both leave the table they were given and call the
destructor not at all. -/
theorem C19_exists_agrees_with_get (t : hash_table_t) (keyP : Nat) :
    (hashtable_is_key_exists (some t) keyP = HASH_TABLE_OK
      ↔ (hashtable_get (some t) keyP).1 = HASH_TABLE_OK) ∧
    (hashtable_is_key_exists (some t) keyP = HASH_TABLE_KEY_NOT_EXISTS
      ↔ (hashtable_get (some t) keyP).1 = HASH_TABLE_KEY_NOT_EXISTS) ∧
    (hashtable_is_key_exists_run (some t) keyP).rc = hashtable_is_key_exists (some t) keyP ∧
    (hashtable_get_run (some t) keyP).rc = (hashtable_get (some t) keyP).1 ∧
    (hashtable_get_run (some t) keyP).out = some (hashtable_get (some t) keyP).2 ∧
    (hashtable_is_key_exists_run (some t) keyP).tbl = some t ∧
    (hashtable_get_run (some t) keyP).tbl = some t ∧
    (hashtable_is_key_exists_run (some t) keyP).freed = [] ∧
    (hashtable_get_run (some t) keyP).freed = [] := by
  obtain ⟨h1, h2⟩ := exists_agrees_with_get t keyP
  refine ⟨h1, h2, ?_, ?_, ?_, ?_, ?_, ?_, ?_⟩
  · simp only [hashtable_is_key_exists_run, hashtable_is_key_exists, exists_walk_eq]
  · simp only [hashtable_get_run, hashtable_get, get_walk_eq]
    cases chain_get keyP (bucket t (hash_index t keyP)) <;> rfl
  · simp only [hashtable_get_run, hashtable_get, get_walk_eq]
    cases chain_get keyP (bucket t (hash_index t keyP)) <;> rfl
  · simp only [hashtable_is_key_exists_run, exists_walk_eq]
  · simp only [hashtable_get_run, get_walk_eq]
    cases chain_get keyP (bucket t (hash_index t keyP)) <;> rfl
  · simp only [hashtable_is_key_exists_run, exists_walk_eq]
  · simp only [hashtable_get_run, get_walk_eq]
    cases chain_get keyP (bucket t (hash_index t keyP)) <;> rfl

theorem get_after_set_other (t : hash_table_t) (i c k : Nat) (chain : List hash_node_t)
    (hi : i < t.nodes.length) (h : chain_get k chain = chain_get k (bucket t i)) :
    hashtable_get (some { t with nodes := t.nodes.set i chain, num_elements := c }) k
      = hashtable_get (some t) k := by
  simp only [hashtable_get]
  rw [hash_index_congr { t with nodes := t.nodes.set i chain, num_elements := c } t k rfl rfl]
  by_cases hik : i = hash_index t k
  · rw [← hik, bucket_set_same t i chain c hi, h]
  · rw [bucket_set_other t i (hash_index t k) chain c hik]

/-- C20: in a well-formed table, for keys `k` and `k'` that differ,
`hashtable_get` of `k'` gives the same result code and value before and after
`hashtable_insert` of `k` (whatever the allocator does), `hashtable_free` of
`k` and `hashtable_remove` of `k`, whether or not the two keys share a
bucket. -/
theorem C20_other_keys_untouched (t : hash_table_t) (keyP dataP k : Nat) (ok : Bool)
    (hwf : well_formed t) (hne : k ≠ keyP) :
    hashtable_get (hashtable_insert (some t) keyP dataP ok).tbl k = hashtable_get (some t) k ∧
    hashtable_get (hashtable_free (some t) keyP).tbl k = hashtable_get (some t) k ∧
    hashtable_get (hashtable_remove (some t) keyP).tbl k = hashtable_get (some t) k := by
  have hi : hash_index t keyP < t.nodes.length := hwf.2.1 ▸ hash_index_lt t keyP hwf.1
  refine ⟨?_, ?_⟩
  · cases hr : chain_overwrite keyP dataP (bucket t (hash_index t keyP)) with
    | some r =>
      obtain ⟨chain, freed⟩ := r
      rw [insert_overwrite_eq t keyP dataP ok chain freed hr]
      exact get_after_set_other t _ _ k chain hi
        (chain_overwrite_get_other keyP dataP k _ chain freed hr hne)
    | none =>
      cases ok with
      | false =>
        have : hashtable_insert (some t) keyP dataP false
            = ⟨undeclared (-1), some t, [], none⟩ := by simp [hashtable_insert, hr]
        rw [this]
      | true =>
        rw [insert_fresh_eq t keyP dataP hr]
        exact get_after_set_other t _ _ k _ hi (by simp [chain_get, Ne.symm hne])
  · cases hr : chain_unlink keyP (bucket t (hash_index t keyP)) with
    | none =>
      rw [free_absent_eq t keyP hr, remove_absent_eq t keyP hr]
      exact ⟨rfl, rfl⟩
    | some r =>
      obtain ⟨chain, data⟩ := r
      rw [free_found_eq t keyP data chain hr, remove_found_eq t keyP data chain hr]
      have h := get_after_set_other t _ (counter_dec t.num_elements) k chain hi
        (chain_unlink_get_other keyP data k _ chain hr hne)
      exact ⟨h, h⟩

/-- C20 at the table with keys 1, 5, 9, all in one bucket: key 5 is inserted
anew, freed or removed, and key 1, behind it in the chain, is looked up. -/
theorem C20_other_keys_untouched_witness :
    (well_formed table_1_5_9 ∧ 1 ≠ 5) ∧
    hashtable_get (hashtable_insert (some table_1_5_9) 5 77 true).tbl 1
      = hashtable_get (some table_1_5_9) 1 ∧
    hashtable_get (hashtable_free (some table_1_5_9) 5).tbl 1
      = hashtable_get (some table_1_5_9) 1 ∧
    hashtable_get (hashtable_remove (some table_1_5_9) 5).tbl 1
      = hashtable_get (some table_1_5_9) 1 :=
  ⟨⟨by with_unfolding_all decide, by with_unfolding_all decide⟩,
    C20_other_keys_untouched table_1_5_9 5 77 1 true (by with_unfolding_all decide)
      (by with_unfolding_all decide)⟩

/-! ## The remaining capacity of the dump -/

theorem dump_chain_remaining (ptr_fmt : Nat → List Char) (chain : List hash_node_t) :
    ∀ (buffer : List Char) (remaining : Int), 0 ≤ remaining →
      0 ≤ (dump_chain ptr_fmt chain buffer remaining).2 ∧
      (dump_chain ptr_fmt chain buffer remaining).2 ≤ remaining := by
  induction chain with
  | nil => exact fun buffer remaining h => ⟨h, le_refl _⟩
  | cons node next ih =>
    intro buffer remaining h
    simp only [dump_chain]
    split
    · exact ih _ remaining h
    · rename_i hguard
      have hg := not_or.mp hguard
      have h1 : 0 ≤ (snprintf buffer (size_t_of_int remaining) (dump_line ptr_fmt node)).2 :=
        not_lt.mp hg.1
      have h2 : (snprintf buffer (size_t_of_int remaining) (dump_line ptr_fmt node)).2
          ≤ remaining := not_lt.mp hg.2
      obtain ⟨r1, r2⟩ := ih (snprintf buffer (size_t_of_int remaining)
        (dump_line ptr_fmt node)).1
        (remaining - (snprintf buffer (size_t_of_int remaining) (dump_line ptr_fmt node)).2)
        (by omega)
      exact ⟨r1, by omega⟩

theorem snprintf_return (buffer : List Char) (size : Nat) (text : List Char) :
    (snprintf buffer size text).2 = (text.length : Int) := by
  unfold snprintf
  split <;> rfl

theorem dump_chain_single (ptr_fmt : Nat → List Char) (node : hash_node_t)
    (buffer : List Char) (remaining : Int) :
    (dump_chain ptr_fmt [node] buffer remaining).2
      = if ((dump_line ptr_fmt node).length : Int) ≤ remaining
        then remaining - ((dump_line ptr_fmt node).length : Int) else remaining := by
  simp only [dump_chain, snprintf_return]
  by_cases h : ((dump_line ptr_fmt node).length : Int) ≤ remaining
  · have hg : ¬ (0 > ((dump_line ptr_fmt node).length : Int)
        ∨ remaining < ((dump_line ptr_fmt node).length : Int)) := by omega
    rw [if_neg hg, if_pos h]
  · have hg : 0 > ((dump_line ptr_fmt node).length : Int)
        ∨ remaining < ((dump_line ptr_fmt node).length : Int) := by omega
    rw [if_pos hg, if_neg h]

theorem dump_buckets_remaining (ptr_fmt : Nat → List Char) (t : hash_table_t) :
    ∀ (fuel i : Nat) (buffer : List Char) (remaining : Int) (res : List Char × Int),
      0 ≤ remaining → dump_buckets ptr_fmt t fuel i buffer remaining = some res →
      0 ≤ res.2 ∧ res.2 ≤ remaining := by
  intro fuel
  induction fuel with
  | zero =>
    intro i buffer remaining res _ h
    simp [dump_buckets] at h
  | succ fuel ih =>
    intro i buffer remaining res h0 h
    simp only [dump_buckets] at h
    split at h
    · obtain ⟨c1, c2⟩ := dump_chain_remaining ptr_fmt (bucket t i) buffer remaining h0
      obtain ⟨r1, r2⟩ := ih _ _ _ res c1 h
      exact ⟨r1, le_trans r2 c2⟩
    · simp only [Option.some.injEq] at h
      subst h
      exact ⟨h0, le_refl _⟩

theorem dump_buckets_ends (ptr_fmt : Nat → List Char) (t : hash_table_t)
    (hrange : t.size < UINT_MOD) :
    ∀ (fuel i : Nat) (buffer : List Char) (remaining : Int), i ≤ t.size → t.size - i < fuel →
      ∃ res, dump_buckets ptr_fmt t fuel i buffer remaining = some res := by
  intro fuel
  induction fuel with
  | zero => intro i _ _ _ hf; omega
  | succ fuel ih =>
    intro i buffer remaining hi hf
    simp only [dump_buckets]
    split
    · rename_i hcond
      have hmod : (i + 1) % UINT_MOD = i + 1 := Nat.mod_eq_of_lt (by omega)
      rw [hmod]
      exact ih (i + 1) _ _ (by omega) (by omega)
    · exact ⟨_, rfl⟩

/-- For every table and every initial remaining capacity `r0 >= 0`,
whenever `hashtable_dump_content` returns it returns `HASH_TABLE_OK` with a
remaining capacity `r` such that `0 <= r <= r0`; it does return when the
bucket count is in the range of the `unsigned int` bucket index (any fuel above
the bucket count is enough); and rendering one entry lowers the capacity by
the length of its line when that length does not exceed the capacity, and
leaves it as it is otherwise. -/
theorem dump_capacity_within_bounds (ptr_fmt : Nat → List Char) (t : hash_table_t)
    (buffer : List Char) (r0 : Int) (fuel : Nat) (h0 : 0 ≤ r0) :
    (∀ res, hashtable_dump_content ptr_fmt (some t) buffer r0 fuel = some res →
      res.1 = HASH_TABLE_OK ∧ 0 ≤ res.2.2 ∧ res.2.2 ≤ r0) ∧
    (t.size < UINT_MOD → t.size < fuel →
      ∃ buffer2 r, hashtable_dump_content ptr_fmt (some t) buffer r0 fuel
          = some (HASH_TABLE_OK, buffer2, r) ∧ 0 ≤ r ∧ r ≤ r0) ∧
    (∀ node buf (r : Int),
      (dump_chain ptr_fmt [node] buf r).2
        = if ((dump_line ptr_fmt node).length : Int) ≤ r
          then r - ((dump_line ptr_fmt node).length : Int) else r) := by
  refine ⟨?_, ?_, fun node buf r => dump_chain_single ptr_fmt node buf r⟩
  · intro res h
    simp only [hashtable_dump_content] at h
    cases hd : dump_buckets ptr_fmt t fuel 0 buffer r0 with
    | none => simp [hd] at h
    | some d =>
      obtain ⟨b1, b2⟩ := dump_buckets_remaining ptr_fmt t fuel 0 buffer r0 d h0 hd
      simp only [hd, Option.some.injEq] at h
      subst h
      exact ⟨rfl, b1, b2⟩
  · intro hrange hfuel
    obtain ⟨d, hd⟩ := dump_buckets_ends ptr_fmt t hrange fuel 0 buffer r0 (Nat.zero_le _)
      (by omega)
    obtain ⟨b1, b2⟩ := dump_buckets_remaining ptr_fmt t fuel 0 buffer r0 d h0 hd
    exact ⟨d.1, d.2, by simp only [hashtable_dump_content, hd], b1, b2⟩

/-- The table with keys 1, 5, 9 dumped into 64 bytes with fuel 5: the
call returns `HASH_TABLE_OK` and a capacity between 0 and 64. -/
theorem dump_capacity_within_bounds_example :
    ((0 : Int) ≤ 64 ∧ table_1_5_9.size < UINT_MOD ∧ table_1_5_9.size < 5) ∧
    ∃ buffer2 r, hashtable_dump_content ptr_hex (some table_1_5_9) dots_64 64 5
        = some (HASH_TABLE_OK, buffer2, r) ∧ 0 ≤ r ∧ r ≤ 64 :=
  ⟨⟨by decide, by with_unfolding_all decide, by with_unfolding_all decide⟩,
    (dump_capacity_within_bounds ptr_hex table_1_5_9 dots_64 64 5 (by decide)).2.1
      (by with_unfolding_all decide) (by with_unfolding_all decide)⟩

/-! ## Resizing -/

theorem resize_step_some (ok : Nat → Bool) (rel : Nat → hash_node_t → Option hash_node_t)
    (node : hash_node_t) (s s1 : resize_state) (h : resize_step ok rel node s = some s1) :
    ∃ seen, rel s.inserts node = some seen ∧
      (hashtable_insert (some s.new) seen.key seen.data (ok s.inserts)).freed = [] ∧
      s1.old = (hashtable_remove (some s.old) node.key).tbl.getD s.old ∧
      s1.new = (hashtable_insert (some s.new) seen.key seen.data (ok s.inserts)).tbl.getD
        s.new := by
  unfold resize_step at h
  cases hr : rel s.inserts node with
  | none => simp [hr] at h
  | some seen =>
    simp only [hr] at h
    split at h
    · rename_i hf
      simp only [Option.some.injEq] at h
      subst h
      exact ⟨seen, rfl, hf, rfl, rfl⟩
    · cases h

theorem resize_step_old (ok : Nat → Bool) (rel : Nat → hash_node_t → Option hash_node_t)
    (i : Nat) (node : hash_node_t) (next : List hash_node_t) (s s1 : resize_state)
    (hb : bucket s.old i = node :: next) (hidx : hash_index s.old node.key = i)
    (h : resize_step ok rel node s = some s1) :
    s1.old.nodes = s.old.nodes.set i next ∧ s1.old.size = s.old.size ∧
    s1.old.hashfunc = s.old.hashfunc ∧
    s1.old.num_elements = counter_dec s.old.num_elements := by
  obtain ⟨seen, -, -, hold, -⟩ := resize_step_some ok rel node s s1 h
  have hunlink : chain_unlink node.key (bucket s.old (hash_index s.old node.key))
      = some (next, node.data) := by
    rw [hidx, hb]
    simp [chain_unlink]
  rw [remove_found_eq s.old node.key node.data next hunlink, hidx] at hold
  rw [hold]
  exact ⟨rfl, rfl, rfl, rfl⟩

theorem resize_step_new (ok : Nat → Bool) (rel : Nat → hash_node_t → Option hash_node_t)
    (node : hash_node_t) (s s1 : resize_state) (hwf : well_formed s.new)
    (h : resize_step ok rel node s = some s1) :
    well_formed s1.new ∧ s1.new.size = s.new.size ∧ s1.new.hashfunc = s.new.hashfunc := by
  obtain ⟨seen, -, -, -, hnew⟩ := resize_step_some ok rel node s s1 h
  obtain ⟨t2, ht, hwf2, hs, hf⟩ :=
    insert_well_formed s.new seen.key seen.data (ok s.inserts) hwf
  rw [ht] at hnew
  have h2 : s1.new = t2 := hnew
  rw [h2]
  exact ⟨hwf2, hs, hf⟩

theorem bucket_of_nodes_set (a b : hash_table_t) (i : Nat) (chain : List hash_node_t)
    (hi : i < b.nodes.length) (h : a.nodes = b.nodes.set i chain) : bucket a i = chain := by
  simp [bucket, h, List.getD_eq_getElem?_getD, List.getElem?_set_self hi]

theorem resize_chain_returns (ok : Nat → Bool) (rel : Nat → hash_node_t → Option hash_node_t)
    (i : Nat) :
    ∀ (chain : List hash_node_t) (s s2 : resize_state),
      i < s.old.nodes.length → bucket s.old i = chain →
      (∀ node ∈ chain, hash_index s.old node.key = i) → well_formed s.new →
      resize_chain ok rel chain s = some s2 →
      s2.old.nodes = s.old.nodes.set i [] ∧ s2.old.size = s.old.size ∧
      s2.old.hashfunc = s.old.hashfunc ∧
      s2.old.num_elements = counter_dec^[chain.length] s.old.num_elements ∧
      well_formed s2.new ∧ s2.new.size = s.new.size ∧ s2.new.hashfunc = s.new.hashfunc := by
  intro chain
  induction chain with
  | nil =>
    intro s s2 hi hb _ hwf h
    simp only [resize_chain, Option.some.injEq] at h
    subst h
    refine ⟨?_, rfl, rfl, rfl, hwf, rfl, rfl⟩
    rw [← hb, set_bucket_self s.old i hi]
  | cons node next ih =>
    intro s s2 hi hb hidx hwf h
    simp only [resize_chain] at h
    cases hstep : resize_step ok rel node s with
    | none => simp [hstep] at h
    | some s1 =>
      simp only [hstep] at h
      have hkidx : hash_index s.old node.key = i := hidx node (List.mem_cons_self _ _)
      obtain ⟨q1, q2, q3, q4⟩ := resize_step_old ok rel i node next s s1 hb hkidx hstep
      obtain ⟨n1, n2, n3⟩ := resize_step_new ok rel node s s1 hwf hstep
      have hidx1 : ∀ n ∈ next, hash_index s1.old n.key = i := by
        intro n hn
        rw [hash_index_congr s1.old s.old n.key q2 q3]
        exact hidx n (List.mem_cons_of_mem _ hn)
      obtain ⟨r1, r2, r3, r4, r5, r6, r7⟩ := ih s1 s2
        (by rw [q1, List.length_set]; exact hi) (bucket_of_nodes_set s1.old s.old i next hi q1)
        hidx1 n1 h
      refine ⟨?_, r2.trans q2, r3.trans q3, ?_, r5, r6.trans n2, r7.trans n3⟩
      · rw [r1, q1]
        exact List.set_set _ _ _ _
      · rw [r4, q4, List.length_cons, Function.iterate_succ_apply]

theorem resize_buckets_returns (ok : Nat → Bool)
    (rel : Nat → hash_node_t → Option hash_node_t) :
    ∀ (todo i : Nat) (s s2 : resize_state),
      i + todo = s.old.nodes.length → placement s.old → well_formed s.new →
      resize_buckets ok rel todo i s = some s2 →
      s2.old.size = s.old.size ∧ s2.old.hashfunc = s.old.hashfunc ∧
      s2.old.num_elements
        = counter_dec^[((s.old.nodes.drop i).flatten).length] s.old.num_elements ∧
      well_formed s2.new ∧ s2.new.size = s.new.size ∧ s2.new.hashfunc = s.new.hashfunc := by
  intro todo
  induction todo with
  | zero =>
    intro i s s2 hlen _ hwf h
    simp only [resize_buckets, Option.some.injEq] at h
    subst h
    have : s.old.nodes.drop i = [] := List.drop_eq_nil_of_le (by omega)
    refine ⟨rfl, rfl, ?_, hwf, rfl, rfl⟩
    rw [this]
    rfl
  | succ todo ih =>
    intro i s s2 hlen hp hwf h
    have hi : i < s.old.nodes.length := by omega
    simp only [resize_buckets] at h
    cases hchain : resize_chain ok rel (bucket s.old i) s with
    | none => simp [hchain] at h
    | some s1 =>
      simp only [hchain] at h
      obtain ⟨q1, q2, q3, q4, q5, q6, q7⟩ := resize_chain_returns ok rel i (bucket s.old i) s s1
        hi rfl (fun node hn => hp i hi node hn) hwf hchain
      have hdrop : s.old.nodes.drop i = bucket s.old i :: s.old.nodes.drop (i + 1) := by
        rw [bucket_eq_getElem s.old i hi]
        exact List.drop_eq_getElem_cons hi
      have hdrop1 : s1.old.nodes.drop (i + 1) = s.old.nodes.drop (i + 1) := by
        rw [q1]
        exact List.drop_set_of_lt _ _ (Nat.lt_succ_self i)
      have hp1 : placement s1.old :=
        placement_congr _ { s.old with nodes := s.old.nodes.set i [] } q2 q1 q3
          (placement_set s.old i [] s.old.num_elements hp (fun node hn => by cases hn))
      obtain ⟨r1, r2, r3, r4, r5, r6⟩ := ih (i + 1) s1 s2
        (by rw [q1, List.length_set]; omega) hp1 q5 h
      refine ⟨r1.trans q2, r2.trans q3, ?_, r4, r5.trans q6, r6.trans q7⟩
      rw [r3, hdrop1, q4, hdrop, List.flatten_cons, List.length_append,
        Nat.add_comm (bucket s.old i).length _, Function.iterate_add_apply]

theorem iterate_counter_dec (n c : Nat) (hn : n ≤ c) (hc : c + 1 < HASH_SIZE_MOD) :
    counter_dec^[n] c = c - n := by
  induction n generalizing c with
  | zero => rfl
  | succ n ih =>
    have hdec := counter_dec_eq c (by omega) hc
    have hval : counter_dec c = c - 1 := by omega
    rw [Function.iterate_succ_apply, hval, ih (c - 1) (by omega) (by omega)]
    omega

theorem resize_returns (t : hash_table_t) (sizeP : Nat) (ok : Nat → Bool) (uninit : Nat)
    (rel : Nat → hash_node_t → Option hash_node_t) (out : outcome)
    (hlen : t.nodes.length = t.size) (hp : placement t) (hn : 1 ≤ sizeP)
    (h : hashtable_resize (some t) sizeP true ok uninit rel = some out) :
    out.rc = HASH_TABLE_OK ∧ out.freed = [] ∧
    ∃ t2, out.tbl = some t2 ∧ t2.size = sizeP ∧ well_formed t2 ∧
      t2.num_elements = counter_dec^[(entries t).length] t.num_elements := by
  have hwf0 := well_formed_empty sizeP uninit t.hashfunc hn
  simp only [hashtable_resize, Bool.not_true, Bool.false_eq_true, if_false] at h
  cases hb : resize_buckets ok rel t.size 0
      ⟨t, ⟨sizeP, uninit, List.replicate sizeP [], t.hashfunc⟩, 0⟩ with
  | none => simp [hb] at h
  | some S =>
    simp only [hb, Option.some.injEq] at h
    obtain ⟨r1, r2, r3, r4, r5, r6⟩ := resize_buckets_returns ok rel t.size 0
      ⟨t, ⟨sizeP, uninit, List.replicate sizeP [], t.hashfunc⟩, 0⟩ S
      (by simpa using hlen.symm) hp hwf0 hb
    subst h
    refine ⟨rfl, rfl, { S.old with size := S.new.size, nodes := S.new.nodes }, rfl, r5,
      well_formed_congr _ S.new rfl rfl (r2.trans r6.symm) r4, ?_⟩
    simp only [List.drop_zero] at r3
    exact r3

theorem visit_buckets_counter_zero (t : hash_table_t) (fuel : Nat) (h0 : t.num_elements = 0) :
    visit_buckets t (fuel + 1) 0 0 = some [] := by
  simp [visit_buckets, h0]

theorem resize_step_intact (ok : Nat → Bool) (hok : ∀ j, ok j = true) (node : hash_node_t)
    (s : resize_state) (hwf : well_formed s.new)
    (hnot : node.key ∉ (entries s.new).map hash_node_t.key) :
    ∃ s1, resize_step ok intact node s = some s1 ∧
      List.Perm (entries s1.new) (node :: entries s.new) := by
  have hnew_i : hash_index s.new node.key < s.new.nodes.length :=
    hwf.2.1 ▸ hash_index_lt s.new node.key hwf.1
  have hfresh := fresh_of_absent s.new node.key node.data hnew_i hnot
  have hins := insert_fresh_eq s.new node.key node.data hfresh
  refine ⟨{ old := (hashtable_remove (some s.old) node.key).tbl.getD s.old
            new := { s.new with nodes := s.new.nodes.set (hash_index s.new node.key)
                                  (⟨node.key, node.data⟩
                                    :: bucket s.new (hash_index s.new node.key))
                                num_elements := counter_inc s.new.num_elements }
            inserts := s.inserts + 1 }, ?_, ?_⟩
  · simp only [resize_step, intact]
    rw [hok, hins]
    rfl
  · exact entries_perm_fresh s.new (hash_index s.new node.key) _ ⟨node.key, node.data⟩ hnew_i

theorem resize_chain_intact (ok : Nat → Bool) (hok : ∀ j, ok j = true) (i : Nat) :
    ∀ (chain : List hash_node_t) (s : resize_state),
      i < s.old.nodes.length → bucket s.old i = chain →
      (∀ node ∈ chain, hash_index s.old node.key = i) → well_formed s.new →
      (chain.map hash_node_t.key ++ (entries s.new).map hash_node_t.key).Nodup →
      ∃ s2, resize_chain ok intact chain s = some s2 ∧
        List.Perm (entries s2.new) (chain ++ entries s.new) := by
  intro chain
  induction chain with
  | nil => exact fun s _ _ _ _ _ => ⟨s, rfl, List.Perm.refl _⟩
  | cons node next ih =>
    intro s hi hb hidx hwf hnd
    have hkidx : hash_index s.old node.key = i := hidx node (List.mem_cons_self _ _)
    have hnot : node.key ∉ (entries s.new).map hash_node_t.key := fun hm =>
      (List.nodup_append.mp hnd).2.2 (by simp) hm
    obtain ⟨s1, hstep, hperm⟩ := resize_step_intact ok hok node s hwf hnot
    obtain ⟨q1, q2, q3, -⟩ := resize_step_old ok intact i node next s s1 hb hkidx hstep
    obtain ⟨n1, -, -⟩ := resize_step_new ok intact node s s1 hwf hstep
    have hidx1 : ∀ n ∈ next, hash_index s1.old n.key = i := by
      intro n hn
      rw [hash_index_congr s1.old s.old n.key q2 q3]
      exact hidx n (List.mem_cons_of_mem _ hn)
    have hnd1 : (next.map hash_node_t.key ++ (entries s1.new).map hash_node_t.key).Nodup := by
      have hp : List.Perm
          (next.map hash_node_t.key ++ (entries s1.new).map hash_node_t.key)
          ((node :: next).map hash_node_t.key ++ (entries s.new).map hash_node_t.key) := by
        refine (List.Perm.append_left _ (hperm.map hash_node_t.key)).trans ?_
        simp only [List.map_cons, List.cons_append]
        exact List.perm_middle
      exact (hp.nodup_iff).mpr hnd
    obtain ⟨s2, h2, hperm2⟩ := ih s1 (by rw [q1, List.length_set]; exact hi)
      (bucket_of_nodes_set s1.old s.old i next hi q1) hidx1 n1 hnd1
    refine ⟨s2, by simp only [resize_chain, hstep, h2], ?_⟩
    exact hperm2.trans ((List.Perm.append_left _ hperm).trans List.perm_middle)

theorem resize_buckets_intact (ok : Nat → Bool) (hok : ∀ j, ok j = true) :
    ∀ (todo i : Nat) (s : resize_state),
      i + todo = s.old.nodes.length → placement s.old → well_formed s.new →
      (((s.old.nodes.drop i).flatten).map hash_node_t.key
        ++ (entries s.new).map hash_node_t.key).Nodup →
      ∃ s2, resize_buckets ok intact todo i s = some s2 ∧
        List.Perm (entries s2.new) ((s.old.nodes.drop i).flatten ++ entries s.new) := by
  intro todo
  induction todo with
  | zero =>
    intro i s hlen _ _ _
    have : s.old.nodes.drop i = [] := List.drop_eq_nil_of_le (by omega)
    refine ⟨s, rfl, ?_⟩
    rw [this]
    exact List.Perm.refl _
  | succ todo ih =>
    intro i s hlen hp hwf hnd
    have hi : i < s.old.nodes.length := by omega
    have hdrop : s.old.nodes.drop i = bucket s.old i :: s.old.nodes.drop (i + 1) := by
      rw [bucket_eq_getElem s.old i hi]
      exact List.drop_eq_getElem_cons hi
    rw [hdrop, List.flatten_cons, List.map_append, List.append_assoc] at hnd
    have hnd_chain : ((bucket s.old i).map hash_node_t.key
        ++ (entries s.new).map hash_node_t.key).Nodup := by
      refine List.Nodup.sublist ?_ hnd
      exact List.Sublist.append_left (List.sublist_append_right _ _) _
    obtain ⟨s1, hchain, hperm⟩ := resize_chain_intact ok hok i (bucket s.old i) s hi rfl
      (fun node hn => hp i hi node hn) hwf hnd_chain
    obtain ⟨q1, q2, q3, -, q5, -, -⟩ := resize_chain_returns ok intact i (bucket s.old i) s s1
      hi rfl (fun node hn => hp i hi node hn) hwf hchain
    have hdrop1 : s1.old.nodes.drop (i + 1) = s.old.nodes.drop (i + 1) := by
      rw [q1]
      exact List.drop_set_of_lt _ _ (Nat.lt_succ_self i)
    have hp1 : placement s1.old :=
      placement_congr _ { s.old with nodes := s.old.nodes.set i [] } q2 q1 q3
        (placement_set s.old i [] s.old.num_elements hp (fun node hn => by cases hn))
    have hnd1 : (((s1.old.nodes.drop (i + 1)).flatten).map hash_node_t.key
        ++ (entries s1.new).map hash_node_t.key).Nodup := by
      rw [hdrop1]
      have hperm2 : List.Perm
          (((s.old.nodes.drop (i + 1)).flatten).map hash_node_t.key
            ++ (entries s1.new).map hash_node_t.key)
          ((bucket s.old i).map hash_node_t.key
            ++ (((s.old.nodes.drop (i + 1)).flatten).map hash_node_t.key
              ++ (entries s.new).map hash_node_t.key)) := by
        refine (List.Perm.append_left _ (hperm.map hash_node_t.key)).trans ?_
        rw [List.map_append]
        exact List.perm_append_comm_assoc _ _ _
      exact (hperm2.nodup_iff).mpr hnd
    obtain ⟨s2, h2, hperm3⟩ := ih (i + 1) s1 (by rw [q1, List.length_set]; omega) hp1 q5 hnd1
    refine ⟨s2, by simp only [resize_buckets, hchain, h2], ?_⟩
    rw [hdrop1] at hperm3
    rw [hdrop, List.flatten_cons, List.append_assoc]
    exact hperm3.trans ((List.Perm.append_left _ hperm).trans
      (List.perm_append_comm_assoc _ _ _))

/-- When the released nodes still hold what they held, `hashtable_resize` of a
well-formed table to `n >= 1` buckets, all allocations succeeding, returns
`HASH_TABLE_OK`, sets the bucket count, keeps the entries up to their order
and leaves every `hashtable_get` as it was. -/
theorem resize_intact (t : hash_table_t) (sizeP : Nat) (ok : Nat → Bool) (uninit : Nat)
    (hwf : well_formed t) (hn : 1 ≤ sizeP) (hok : ∀ j, ok j = true) :
    ∃ t2, hashtable_resize (some t) sizeP true ok uninit intact
        = some ⟨HASH_TABLE_OK, some t2, [], none⟩ ∧
      t2.size = sizeP ∧ well_formed t2 ∧ List.Perm (entries t2) (entries t) ∧
      ∀ keyP, hashtable_get (some t2) keyP = hashtable_get (some t) keyP := by
  have hwf0 := well_formed_empty sizeP uninit t.hashfunc hn
  have he : entries ⟨sizeP, uninit, List.replicate sizeP [], t.hashfunc⟩ = [] := by
    simp [entries]
  obtain ⟨S, hS, hperm⟩ := resize_buckets_intact ok hok t.size 0
    ⟨t, ⟨sizeP, uninit, List.replicate sizeP [], t.hashfunc⟩, 0⟩
    (by simpa using hwf.2.1.symm) hwf.2.2.1 hwf0
    (by
      simp only [he, List.drop_zero, List.map_nil, List.append_nil]
      exact hwf.2.2.2)
  obtain ⟨-, r2, -, r4, r5, r6⟩ := resize_buckets_returns ok intact t.size 0
    ⟨t, ⟨sizeP, uninit, List.replicate sizeP [], t.hashfunc⟩, 0⟩ S
    (by simpa using hwf.2.1.symm) hwf.2.2.1 hwf0 hS
  have hwf2 : well_formed { S.old with size := S.new.size, nodes := S.new.nodes } :=
    well_formed_congr _ S.new rfl rfl (r2.trans r6.symm) r4
  have hperm2 : List.Perm (entries { S.old with size := S.new.size, nodes := S.new.nodes })
      (entries t) := by
    rw [he, List.append_nil, List.drop_zero] at hperm
    exact hperm
  refine ⟨{ S.old with size := S.new.size, nodes := S.new.nodes }, ?_, r5, hwf2, hperm2,
    fun keyP => get_eq_of_entries_perm _ t keyP hwf2 hwf hperm2⟩
  simp only [hashtable_resize, Bool.not_true, Bool.false_eq_true, if_false, hS]

theorem resize_buckets_trapping (ok : Nat → Bool) :
    ∀ (todo i : Nat) (s : resize_state), i + todo = s.old.nodes.length →
      (s.old.nodes.drop i).flatten ≠ [] → resize_buckets ok trapping todo i s = none := by
  intro todo
  induction todo with
  | zero =>
    intro i s hlen hne
    exact absurd (by rw [List.drop_eq_nil_of_le (by omega)]; rfl) hne
  | succ todo ih =>
    intro i s hlen hne
    have hi : i < s.old.nodes.length := by omega
    have hdrop : s.old.nodes.drop i = bucket s.old i :: s.old.nodes.drop (i + 1) := by
      rw [bucket_eq_getElem s.old i hi]
      exact List.drop_eq_getElem_cons hi
    cases hb : bucket s.old i with
    | nil =>
      rw [hdrop, hb, List.flatten_cons, List.nil_append] at hne
      simp only [resize_buckets, hb, resize_chain]
      exact ih (i + 1) s (by omega) hne
    | cons node next => simp [resize_buckets, hb, resize_chain, resize_step, trapping]

theorem resize_trapping (t : hash_table_t) (sizeP : Nat) (ok : Nat → Bool) (uninit : Nat)
    (hlen : t.nodes.length = t.size) (hne : entries t ≠ []) :
    hashtable_resize (some t) sizeP true ok uninit trapping = none := by
  have h := resize_buckets_trapping ok t.size 0
    ⟨t, ⟨sizeP, uninit, List.replicate sizeP [], t.hashfunc⟩, 0⟩ (by simpa using hlen.symm)
    (by simpa [entries] using hne)
  simp only [hashtable_resize, Bool.not_true, Bool.false_eq_true, if_false, h]

/-- C4, evaluated on the well-formed table with keys 1, 5, 9 resized from 4 to 8
buckets, all allocations succeeding. Every node the loop moves is read
(`node->key`, `node->data`) after `hashtable_remove` has released it. When
that read traps, the call does not return. When the allocator has written over
the released nodes, the call returns `HASH_TABLE_OK` with 8 buckets, but the
table holds the keys found in the released memory: key 5, bound to 105 before
the call, is no longer found. When every read yields the same key, the second
insert is an overwrite that calls the never-initialised `newtbl.freefunc`, and
the call does not return. -/
theorem C4_resize_reads_released_nodes :
    well_formed table_1_5_9 ∧
    hashtable_get (some table_1_5_9) 5 = (HASH_TABLE_OK, 105) ∧
    hashtable_resize (some table_1_5_9) 8 true (fun _ => true) 0 trapping = none ∧
    (hashtable_resize (some table_1_5_9) 8 true (fun _ => true) 0 scribbled).map
        (fun out => (out.rc, out.tbl.map hash_table_t.size))
      = some (HASH_TABLE_OK, some 8) ∧
    (hashtable_resize (some table_1_5_9) 8 true (fun _ => true) 0 scribbled).map
        (fun out => (out.tbl.map entries))
      = some (some [⟨64, 64⟩, ⟨65, 64⟩, ⟨66, 64⟩]) ∧
    (hashtable_resize (some table_1_5_9) 8 true (fun _ => true) 0 scribbled).map
        (fun out => hashtable_get out.tbl 5)
      = some (HASH_TABLE_KEY_NOT_EXISTS, NULL) ∧
    hashtable_resize (some table_1_5_9) 8 true (fun _ => true) 0 scribbled_alike = none := by
  refine ⟨by with_unfolding_all decide, by with_unfolding_all decide, by with_unfolding_all rfl,
    by with_unfolding_all decide, by with_unfolding_all decide, by with_unfolding_all decide,
    by with_unfolding_all rfl⟩

/-- C5: for every well-formed table whose live-entry counter is the number of
its entries, every new bucket count `n >= 1` and whatever the reads of the
released nodes yield: whenever `hashtable_resize` returns, the counter of the
table is 0, because every entry was taken out with `hashtable_remove`, which
decrements it, while the matching increments went to the scratch table; and
`hashtable_apply_funct_on_elements` on the resized table returns
`HASH_TABLE_OK` without calling the visitor at all, however many entries there
are. -/
theorem C5_resize_zeroes_counter (t : hash_table_t) (sizeP : Nat) (ok : Nat → Bool)
    (uninit : Nat) (rel : Nat → hash_node_t → Option hash_node_t) (out : outcome) (fuel : Nat)
    (hwf : well_formed t) (hc : counter_ok t) (hr : t.num_elements + 1 < HASH_SIZE_MOD)
    (hn : 1 ≤ sizeP)
    (h : hashtable_resize (some t) sizeP true ok uninit rel = some out) :
    out.rc = HASH_TABLE_OK ∧
    ∃ t2, out.tbl = some t2 ∧ t2.size = sizeP ∧ t2.num_elements = 0 ∧
      hashtable_apply_funct_on_elements (some t2) (fuel + 1) = some (HASH_TABLE_OK, []) := by
  obtain ⟨h1, -, t2, h2, h3, -, h5⟩ :=
    resize_returns t sizeP ok uninit rel out hwf.2.1 hwf.2.2.1 hn h
  have hzero : t2.num_elements = 0 := by
    unfold counter_ok at hc
    rw [h5, ← hc, iterate_counter_dec t.num_elements t.num_elements (le_refl _) hr]
    exact Nat.sub_self _
  refine ⟨h1, t2, h2, h3, hzero, ?_⟩
  simp only [hashtable_apply_funct_on_elements, visit_buckets_counter_zero t2 fuel hzero]

/-- C5 on the spec's scenario: the table with keys 1 to 8 in 2 buckets and
counter 8, on which the visitor is called 8 times, is resized to 8 buckets
with the released nodes still holding what they held. The call returns, the
table has 8 buckets and counter 0, and the visitor is called 0 times. -/
theorem C5_resize_zeroes_counter_witness :
    (well_formed table_1_to_8 ∧ counter_ok table_1_to_8 ∧
      table_1_to_8.num_elements + 1 < HASH_SIZE_MOD ∧ 1 ≤ 8) ∧
    (hashtable_apply_funct_on_elements (some table_1_to_8) 9).map (fun r => (r.1, r.2.length))
      = some (HASH_TABLE_OK, 8) ∧
    ∃ out, hashtable_resize (some table_1_to_8) 8 true (fun _ => true) 0 intact = some out ∧
      out.rc = HASH_TABLE_OK ∧
      ∃ t2, out.tbl = some t2 ∧ t2.size = 8 ∧ t2.num_elements = 0 ∧
        hashtable_apply_funct_on_elements (some t2) 9 = some (HASH_TABLE_OK, []) := by
  have hsome : ∃ out,
      hashtable_resize (some table_1_to_8) 8 true (fun _ => true) 0 intact = some out := by
    cases hres : hashtable_resize (some table_1_to_8) 8 true (fun _ => true) 0 intact with
    | some out => exact ⟨out, rfl⟩
    | none =>
      have hs : (hashtable_resize (some table_1_to_8) 8 true (fun _ => true) 0 intact).isSome
          = true := by with_unfolding_all decide
      rw [hres] at hs
      cases hs
  obtain ⟨out, hout⟩ := hsome
  exact ⟨⟨by with_unfolding_all decide, by with_unfolding_all decide,
      by with_unfolding_all decide, by with_unfolding_all decide⟩,
    by with_unfolding_all decide, out, hout,
    C5_resize_zeroes_counter table_1_to_8 8 (fun _ => true) 0 intact out 8
      (by with_unfolding_all decide) (by with_unfolding_all decide)
      (by with_unfolding_all decide) (by with_unfolding_all decide) hout⟩

/-! ## The invariants and `hashtable_resize` -/

/-- C17: for a table with at least one bucket whose entries all sit in the
bucket `hashfunc (key) % size`, the same holds after `hashtable_insert`
(whatever the allocator does), `hashtable_free` and `hashtable_remove`, the
bucket count being unchanged. For `hashtable_resize` to `n >= 1` buckets it
holds of the table the call leaves whenever the call returns; but the call
reads every node it moves after releasing it, and when the table holds an
entry and that read traps, the call does not return: the invariant is not
re-established for every table. -/
theorem C17_placement_up_to_resize (t : hash_table_t) (hsz : 1 ≤ t.size)
    (hlen : t.nodes.length = t.size) (hp : placement t) :
    (∀ keyP dataP ok, ∃ t2, (hashtable_insert (some t) keyP dataP ok).tbl = some t2 ∧
      t2.size = t.size ∧ t2.nodes.length = t2.size ∧ placement t2) ∧
    (∀ keyP, ∃ t2, (hashtable_free (some t) keyP).tbl = some t2 ∧
      t2.size = t.size ∧ t2.nodes.length = t2.size ∧ placement t2) ∧
    (∀ keyP, ∃ t2, (hashtable_remove (some t) keyP).tbl = some t2 ∧
      t2.size = t.size ∧ t2.nodes.length = t2.size ∧ placement t2) ∧
    (∀ sizeP ok uninit rel out, 1 ≤ sizeP →
      hashtable_resize (some t) sizeP true ok uninit rel = some out →
      ∃ t2, out.tbl = some t2 ∧ t2.size = sizeP ∧ t2.nodes.length = t2.size ∧ placement t2) ∧
    (entries t ≠ [] → ∀ sizeP ok uninit,
      hashtable_resize (some t) sizeP true ok uninit trapping = none) := by
  refine ⟨fun keyP dataP ok => ?_, fun keyP => ?_, fun keyP => ?_,
    fun sizeP ok uninit rel out hn h => ?_,
    fun hne sizeP ok uninit => resize_trapping t sizeP ok uninit hlen hne⟩
  · obtain ⟨t2, h1, h2, h3, -, h5⟩ := insert_placement t keyP dataP ok hsz hlen hp
    exact ⟨t2, h1, h2, h3, h5⟩
  · obtain ⟨t2, h1, h2, h3, -, h5⟩ := free_placement t keyP hsz hlen hp
    exact ⟨t2, h1, h2, h3, h5⟩
  · obtain ⟨t2, h1, h2, h3, -, h5⟩ := remove_placement t keyP hsz hlen hp
    exact ⟨t2, h1, h2, h3, h5⟩
  · obtain ⟨-, -, t2, h2, h3, h4, -⟩ := resize_returns t sizeP ok uninit rel out hlen hp hn h
    exact ⟨t2, h2, h3, h4.2.1, h4.2.2.1⟩

/-- C17 at the table with keys 1, 5, 9, which holds entries, resized to 8
buckets: with a trapping read of the released node the call does not return;
with the released nodes still holding what they held it returns a table of 8
buckets that satisfies the placement invariant. -/
theorem C17_placement_up_to_resize_witness :
    (1 ≤ table_1_5_9.size ∧ table_1_5_9.nodes.length = table_1_5_9.size ∧
      placement table_1_5_9 ∧ entries table_1_5_9 ≠ [] ∧ 1 ≤ 8) ∧
    hashtable_resize (some table_1_5_9) 8 true (fun _ => true) 0 trapping = none ∧
    ∃ out, hashtable_resize (some table_1_5_9) 8 true (fun _ => true) 0 intact = some out ∧
      ∃ t2, out.tbl = some t2 ∧ t2.size = 8 ∧ t2.nodes.length = t2.size ∧ placement t2 := by
  have hsome : ∃ out,
      hashtable_resize (some table_1_5_9) 8 true (fun _ => true) 0 intact = some out := by
    cases hres : hashtable_resize (some table_1_5_9) 8 true (fun _ => true) 0 intact with
    | some out => exact ⟨out, rfl⟩
    | none =>
      have hs : (hashtable_resize (some table_1_5_9) 8 true (fun _ => true) 0 intact).isSome
          = true := by with_unfolding_all decide
      rw [hres] at hs
      cases hs
  obtain ⟨out, hout⟩ := hsome
  exact ⟨⟨by with_unfolding_all decide, by with_unfolding_all decide,
      by with_unfolding_all decide, by with_unfolding_all decide, by decide⟩,
    (C17_placement_up_to_resize table_1_5_9 (by with_unfolding_all decide)
      (by with_unfolding_all decide) (by with_unfolding_all decide)).2.2.2.2
      (by with_unfolding_all decide) 8 (fun _ => true) 0,
    out, hout,
    (C17_placement_up_to_resize table_1_5_9 (by with_unfolding_all decide)
      (by with_unfolding_all decide) (by with_unfolding_all decide)).2.2.2.1
      8 (fun _ => true) 0 intact out (by decide) hout⟩

/-- C18: no key occurs in more than one entry of a freshly created table; and
for a table with at least one bucket that satisfies the placement invariant
and in which no key occurs twice, no key occurs twice after `hashtable_insert`
(whatever the allocator does), `hashtable_free` and `hashtable_remove`. For
`hashtable_resize` to `n >= 1` buckets it holds of the table the call leaves
whenever the call returns; but the call reads every node it moves after
releasing it, and when the table holds an entry and that read traps, the call
does not return: uniqueness is not an invariant kept by every call. -/
theorem C18_uniqueness_up_to_resize (t : hash_table_t) (hwf : well_formed t) :
    (∀ sizeP uninit hashfuncP t0,
      hashtable_create sizeP hashfuncP true true uninit = some t0 → unique_keys t0) ∧
    (∀ keyP dataP ok, ∃ t2, (hashtable_insert (some t) keyP dataP ok).tbl = some t2 ∧
      unique_keys t2) ∧
    (∀ keyP, ∃ t2, (hashtable_free (some t) keyP).tbl = some t2 ∧ unique_keys t2) ∧
    (∀ keyP, ∃ t2, (hashtable_remove (some t) keyP).tbl = some t2 ∧ unique_keys t2) ∧
    (∀ sizeP ok uninit rel out, 1 ≤ sizeP →
      hashtable_resize (some t) sizeP true ok uninit rel = some out →
      ∃ t2, out.tbl = some t2 ∧ unique_keys t2) ∧
    (entries t ≠ [] → ∀ sizeP ok uninit,
      hashtable_resize (some t) sizeP true ok uninit trapping = none) := by
  refine ⟨fun sizeP uninit hashfuncP t0 h => create_unique_keys sizeP uninit hashfuncP t0 h,
    fun keyP dataP ok => ?_, fun keyP => ?_, fun keyP => ?_,
    fun sizeP ok uninit rel out hn h => ?_,
    fun hne sizeP ok uninit => resize_trapping t sizeP ok uninit hwf.2.1 hne⟩
  · obtain ⟨t2, h1, h2, -, -⟩ := insert_well_formed t keyP dataP ok hwf
    exact ⟨t2, h1, h2.2.2.2⟩
  · obtain ⟨t2, h1, h2⟩ := free_well_formed t keyP hwf
    exact ⟨t2, h1, h2.2.2.2⟩
  · obtain ⟨t2, h1, h2⟩ := remove_well_formed t keyP hwf
    exact ⟨t2, h1, h2.2.2.2⟩
  · obtain ⟨-, -, t2, h2, -, h4, -⟩ :=
      resize_returns t sizeP ok uninit rel out hwf.2.1 hwf.2.2.1 hn h
    exact ⟨t2, h2, h4.2.2.2⟩

/-- C18 at the table with keys 1, 5, 9, which holds entries, resized to 8
buckets: the call does not return when the read of the released node traps,
nor when every such read yields the same key, which makes the second insert an
overwrite calling the never-initialised `newtbl.freefunc`; with the released
nodes still holding what they held it returns a table in which no key occurs
twice. -/
theorem C18_uniqueness_up_to_resize_witness :
    (well_formed table_1_5_9 ∧ entries table_1_5_9 ≠ [] ∧ 1 ≤ 8) ∧
    hashtable_resize (some table_1_5_9) 8 true (fun _ => true) 0 trapping = none ∧
    hashtable_resize (some table_1_5_9) 8 true (fun _ => true) 0 scribbled_alike = none ∧
    ∃ out, hashtable_resize (some table_1_5_9) 8 true (fun _ => true) 0 intact = some out ∧
      ∃ t2, out.tbl = some t2 ∧ unique_keys t2 := by
  have hsome : ∃ out,
      hashtable_resize (some table_1_5_9) 8 true (fun _ => true) 0 intact = some out := by
    cases hres : hashtable_resize (some table_1_5_9) 8 true (fun _ => true) 0 intact with
    | some out => exact ⟨out, rfl⟩
    | none =>
      have hs : (hashtable_resize (some table_1_5_9) 8 true (fun _ => true) 0 intact).isSome
          = true := by with_unfolding_all decide
      rw [hres] at hs
      cases hs
  obtain ⟨out, hout⟩ := hsome
  exact ⟨⟨by with_unfolding_all decide, by with_unfolding_all decide, by decide⟩,
    (C18_uniqueness_up_to_resize table_1_5_9 (by with_unfolding_all decide)).2.2.2.2.2
      (by with_unfolding_all decide) 8 (fun _ => true) 0,
    by with_unfolding_all rfl,
    out, hout,
    (C18_uniqueness_up_to_resize table_1_5_9 (by with_unfolding_all decide)).2.2.2.2.1
      8 (fun _ => true) 0 intact out (by decide) hout⟩

/-! ## The `unsigned int` bucket index -/

theorem uint_mod_pos : 0 < UINT_MOD := by
  simp only [UINT_MOD]
  exact Nat.pos_pow_of_pos 32 (by omega)

theorem bucket_table_wide_lt (i : Nat) (hi : i < UINT_MOD) : bucket table_wide i = [] := by
  simp only [bucket, table_wide, List.getD_eq_getElem?_getD,
    List.getElem?_set_ne (Nat.ne_of_gt hi), List.getElem?_replicate]
  split <;> rfl

theorem bucket_table_wide_last : bucket table_wide UINT_MOD = [⟨UINT_MOD, 7⟩] := by
  simp only [bucket, table_wide, List.getD_eq_getElem?_getD]
  rw [List.getElem?_set_self (by simp)]
  rfl

theorem hash_index_table_wide : hash_index table_wide UINT_MOD = UINT_MOD := by
  simp only [hash_index, table_wide, def_hashfunc, UINT_MOD, HASH_SIZE_MOD]
  norm_num

theorem table_wide_length : table_wide.nodes.length = UINT_MOD + 1 := by
  simp [table_wide]

theorem entries_table_wide : entries table_wide = [⟨UINT_MOD, 7⟩] := by
  have hlen := table_wide_length
  have hsplit := entries_split table_wide UINT_MOD (by rw [hlen]; omega)
  have hpre : (table_wide.nodes.take UINT_MOD).flatten = [] := by
    rw [List.flatten_eq_nil_iff]
    intro l hl
    obtain ⟨j, hj, rfl⟩ := List.mem_iff_getElem.mp hl
    have hj2 : j < UINT_MOD := by
      rw [List.length_take] at hj
      omega
    rw [List.getElem_take, ← bucket_eq_getElem table_wide j (by rw [hlen]; omega)]
    exact bucket_table_wide_lt j hj2
  have hpost : (table_wide.nodes.drop (UINT_MOD + 1)).flatten = [] := by
    rw [List.drop_eq_nil_of_le (by rw [hlen])]
    rfl
  rw [hsplit, hpre, hpost, bucket_table_wide_last]
  rfl

theorem table_wide_reached :
    hashtable_insert (hashtable_create (UINT_MOD + 1) none true true 0) UINT_MOD 7 true
      = ⟨HASH_TABLE_OK, some table_wide, [], none⟩ := by
  have hcreate : hashtable_create (UINT_MOD + 1) none true true 0
      = some ⟨UINT_MOD + 1, 0, List.replicate (UINT_MOD + 1) [], def_hashfunc⟩ := rfl
  have hidx : hash_index ⟨UINT_MOD + 1, 0, List.replicate (UINT_MOD + 1) [], def_hashfunc⟩
      UINT_MOD = UINT_MOD := by
    simp only [hash_index, def_hashfunc, UINT_MOD, HASH_SIZE_MOD]
    norm_num
  have hb : bucket ⟨UINT_MOD + 1, 0, List.replicate (UINT_MOD + 1) [], def_hashfunc⟩ UINT_MOD
      = [] := by
    simp only [bucket, List.getD_eq_getElem?_getD, List.getElem?_replicate]
    split <;> rfl
  have hinc : counter_inc 0 = 1 := by
    simp only [counter_inc, HASH_SIZE_MOD]
    norm_num
  rw [hcreate, insert_fresh_eq _ UINT_MOD 7 (by rw [hidx, hb]; rfl), hidx, hb]
  simp only [hinc]
  rfl

theorem visit_buckets_table_wide :
    ∀ (fuel i : Nat), i < UINT_MOD → visit_buckets table_wide fuel i 0 = none := by
  intro fuel
  induction fuel with
  | zero => exact fun i _ => rfl
  | succ fuel ih =>
    intro i hi
    have hguard : 0 < table_wide.num_elements ∧ i < table_wide.size :=
      ⟨Nat.one_pos, Nat.lt_succ_of_lt hi⟩
    simp only [visit_buckets, hguard, and_self, if_true, bucket_table_wide_lt i hi, visit_chain,
      ih ((i + 1) % UINT_MOD) (Nat.mod_lt _ uint_mod_pos)]

theorem bucket_table_wide_empty (i : Nat) : bucket table_wide_empty i = [] := by
  simp only [bucket, table_wide_empty, List.getD_eq_getElem?_getD, List.getElem?_replicate]
  split <;> rfl

theorem dump_buckets_table_wide_empty (ptr_fmt : Nat → List Char) :
    ∀ (fuel i : Nat) (buffer : List Char), i < UINT_MOD →
      dump_buckets ptr_fmt table_wide_empty fuel i buffer 1 = none := by
  intro fuel
  induction fuel with
  | zero => exact fun i _ _ => rfl
  | succ fuel ih =>
    intro i buffer hi
    have hguard : i < table_wide_empty.size ∧ (1 : Int) > 0 := ⟨hi, Int.one_pos⟩
    simp only [dump_buckets, hguard, and_self, if_true, bucket_table_wide_empty, dump_chain,
      ih ((i + 1) % UINT_MOD) buffer (Nat.mod_lt _ uint_mod_pos)]

theorem well_formed_table_wide : well_formed table_wide := by
  have hlen := table_wide_length
  have hmem : ∀ i, i < table_wide.nodes.length → ∀ node ∈ bucket table_wide i,
      i = UINT_MOD ∧ node = ⟨UINT_MOD, 7⟩ := by
    intro i hi node hn
    by_cases hlt : i < UINT_MOD
    · rw [bucket_table_wide_lt i hlt] at hn
      cases hn
    · have hie : i = UINT_MOD := by omega
      subst hie
      rw [bucket_table_wide_last] at hn
      exact ⟨rfl, List.mem_singleton.mp hn⟩
  refine ⟨Nat.le_add_left 1 UINT_MOD, hlen, ?_, ?_⟩
  · intro i hi node hn
    obtain ⟨h1, h2⟩ := hmem i hi node hn
    subst h1 h2
    exact hash_index_table_wide
  · rw [unique_keys, entries_table_wide]
    simp

/-- C6, evaluated on a well-formed table with a correct counter and `2^32 + 1`
buckets, the only entry sitting in the last one: the table is what
`hashtable_create` and one `hashtable_insert` leave, and
`hashtable_apply_funct_on_elements` never returns on it. The `unsigned int`
index `i` runs through the empty buckets `0` to `2^32 - 1`, wraps around to 0
and starts over, the guard `i < hashtblP->size` being true throughout and the
entry never being reached. -/
theorem C6_apply_never_returns_on_wide_table :
    hashtable_insert (hashtable_create (UINT_MOD + 1) none true true 0) UINT_MOD 7 true
      = ⟨HASH_TABLE_OK, some table_wide, [], none⟩ ∧
    well_formed table_wide ∧ counter_ok table_wide ∧
    ∀ fuel, hashtable_apply_funct_on_elements (some table_wide) fuel = none := by
  refine ⟨table_wide_reached, well_formed_table_wide, ?_, fun fuel => ?_⟩
  · rw [counter_ok, entries_table_wide]
    rfl
  · simp only [hashtable_apply_funct_on_elements,
      visit_buckets_table_wide fuel 0 uint_mod_pos]

/-- C21, evaluated on the table of `2^32` empty buckets that `hashtable_create`
returns, dumped with a remaining capacity of 1: `hashtable_dump_content` never
returns. The `unsigned int` index `i` runs through the buckets `0` to
`2^32 - 1` and wraps around to 0, so that `i < hashtblP->size` stays true, and
the capacity stays 1 since no line is rendered. -/
theorem C21_dump_never_returns_on_wide_table :
    hashtable_create UINT_MOD none true true 0 = some table_wide_empty ∧
    well_formed table_wide_empty ∧ counter_ok table_wide_empty ∧
    ∀ (ptr_fmt : Nat → List Char) (buffer : List Char) (fuel : Nat),
      hashtable_dump_content ptr_fmt (some table_wide_empty) buffer 1 fuel = none := by
  refine ⟨rfl, well_formed_empty UINT_MOD 0 def_hashfunc uint_mod_pos, ?_,
    fun ptr_fmt buffer fuel => ?_⟩
  · simp [counter_ok, entries, table_wide_empty]
  · simp only [hashtable_dump_content,
      dump_buckets_table_wide_empty ptr_fmt fuel 0 buffer uint_mod_pos]

end Hashtable
